import Mathlib

/-!
Verification of the radix trie implementation in `src/radix_trie.hpp`.

The C++ code is shallowly embedded: `Radix_Node` mirrors the node struct
(`std::string val` becomes `List Char`, the `unordered_map<char, Radix_Node*>
children` becomes an association list with unique keys, `bool is_word` stays a
`Bool`).  The public operations of class `Radix_Trie` (`insert`, `find`,
`remove`, `complete`, and the word enumeration of `print("list")`) are
translated function by function; each loop of the source becomes a recursion
with the same case analysis.  Fallible indexing is made explicit: the one
place where `_remove` can read `word[word_idx]` past the end of the string
(undefined behaviour in C++) is modelled by an `Option`, `none` marking the
out-of-range read.
-/

set_option maxHeartbeats 1000000

/-- Mirror of `struct Radix_Node`: a label (`val`), the child map keyed by a
single character, and the end-of-word flag (`is_word`). -/
inductive Radix_Node : Type where
  | mk (val : List Char) (children : List (Char × Radix_Node)) (is_word : Bool)

/-- Projection of the `val` field. -/
def Radix_Node.val : Radix_Node → List Char
  | .mk v _ _ => v

/-- Projection of the `children` field. -/
def Radix_Node.children : Radix_Node → List (Char × Radix_Node)
  | .mk _ cs _ => cs

/-- Projection of the `is_word` field. -/
def Radix_Node.is_word : Radix_Node → Bool
  | .mk _ _ w => w

/-- Lookup in the child map: `children.contains(c)` / `children[c]` of the
source, for an association list keyed by the branching character. -/
def childLookup : List (Char × Radix_Node) → Char → Option Radix_Node
  | [], _ => none
  | (k, n) :: rest, c => if k = c then some n else childLookup rest c

/-- Store in the child map: `children[c] = v` of the source (replaces the
binding when the key is present, appends a new binding otherwise). -/
def childUpdate : List (Char × Radix_Node) → Char → Radix_Node → List (Char × Radix_Node)
  | [], c, v => [(c, v)]
  | (k, n) :: rest, c, v =>
    if k = c then (c, v) :: rest else (k, n) :: childUpdate rest c v

/-- Deletion from the child map: `children.erase(c)` of the source. -/
def childErase : List (Char × Radix_Node) → Char → List (Char × Radix_Node)
  | [], _ => []
  | (k, n) :: rest, c => if k = c then rest else (k, n) :: childErase rest c

/-- Length of the longest common prefix of two character sequences: the number
of iterations of the lock-step comparison loops in `insert`, `find` and
`complete` (`while (i < a.size && j < b.size && a[i] == b[j])`). -/
def matchLen : List Char → List Char → Nat
  | a :: as, b :: bs => if a = b then matchLen as bs + 1 else 0
  | _, _ => 0

/-- The root of a freshly constructed `Radix_Trie`: no label, no children.
The C++ default constructor leaves `is_word` uninitialised; it is modelled as
`false` (the empty trie stores no word), the value every use of the class
relies on. -/
def emptyTrie : Radix_Node := .mk [] [] false

/-- `Radix_Trie::insert`, recursion on the remaining word.  `n` is `curr`,
`w` is the not-yet-consumed suffix `word.substr(w_idx)`.  The inner
character-comparison loop is `matchLen child.val w`; the three outcomes
(mismatch inside the label, word exhausted inside the label, full label
match) are the three branches below, `_rebind` being inlined in the two
split branches.  A child whose label is empty never occurs in trees built
by the class; on such a child the branch conditions send the mismatch case
through the split with an empty common label, exactly as the source would. -/
def insertGo : Radix_Node → List Char → Radix_Node
  | .mk v cs iw, [] => .mk v cs true
  | .mk v cs iw, c :: w' =>
    match h : childLookup cs c with
    | none => .mk v (childUpdate cs c (.mk (c :: w') [] true)) iw
    | some child =>
      let w := c :: w'
      let m := matchLen child.val w
      if m < child.val.length then
        if m < w.length then
          let leaf : Radix_Node := .mk (w.drop m) [] true
          let rel : Radix_Node := .mk (child.val.drop m) child.children child.is_word
          let common : Radix_Node :=
            .mk (child.val.take m)
              (childUpdate (childUpdate [] (w.getD m (Char.ofNat 0)) leaf)
                (child.val.getD m (Char.ofNat 0)) rel) false
          .mk v (childUpdate cs (child.val.getD 0 (Char.ofNat 0)) common) iw
        else
          let rel : Radix_Node := .mk (child.val.drop m) child.children child.is_word
          let common : Radix_Node :=
            .mk (child.val.take m)
              (childUpdate [] (child.val.getD m (Char.ofNat 0)) rel) true
          .mk v (childUpdate cs (child.val.getD 0 (Char.ofNat 0)) common) iw
      else
        .mk v (childUpdate cs c (insertGo child (w.drop m))) iw
termination_by n _ => sizeOf n
decreasing_by
  have hsz : sizeOf child < sizeOf cs := by
    clear * - h
    induction cs with
    | nil => simp [childLookup] at h
    | cons e rest ih =>
      obtain ⟨k, m⟩ := e
      by_cases hk : k = c
      · simp [childLookup, hk] at h
        subst h
        simp
        omega
      · simp [childLookup, hk] at h
        have := ih h
        simp
        omega
  simp
  omega

/-- `Radix_Trie::find`: walks the trie matching whole labels; on a query
exhausted strictly inside a label it returns the current node only when
` allow_partial` is set (parameter `ap` here). -/
def findGo : Radix_Node → List Char → Bool → Option Radix_Node
  | n, [], _ => some n
  | .mk _ cs _, c :: v', ap =>
    match h : childLookup cs c with
    | none => none
    | some child =>
      let v := c :: v'
      let m := matchLen child.val v
      if m < child.val.length then
        if m = v.length ∧ ap = true then some child else none
      else findGo child (v.drop m) ap
termination_by n _ _ => sizeOf n
decreasing_by
  have hsz : sizeOf child < sizeOf cs := by
    clear * - h
    induction cs with
    | nil => simp [childLookup] at h
    | cons e rest ih =>
      obtain ⟨k, m⟩ := e
      by_cases hk : k = c
      · simp [childLookup, hk] at h
        subst h
        simp
        omega
      · simp [childLookup, hk] at h
        have := ih h
        simp
        omega
  simp
  omega

/-- `Radix_Trie::_remove`, with `i` the current `word_idx`.  The source reads
`word[word_idx]` after the `word_idx == word.length()` test; when `word_idx`
has been advanced past the end of the word (possible because the recursive
call adds the full label length without comparing characters) that read is
out of bounds, modelled here by the `none` result.  The result pairs the
updated node with the returned `bool`. -/
def removeAux : Radix_Node → List Char → Nat → Option (Radix_Node × Bool)
  | n, w, i =>
    if i = w.length then
      if n.is_word = false then some (n, false)
      else some (.mk n.val n.children false, true)
    else
      match w.get? i with
      | none => none
      | some c =>
        match h : childLookup n.children c with
        | none => some (n, false)
        | some child =>
          match removeAux child w (i + child.val.length) with
          | none => none
          | some (child', false) =>
            some (.mk n.val (childUpdate n.children c child') n.is_word, false)
          | some (child', true) =>
            match child'.is_word, child'.children with
            | false, [] =>
              some (.mk n.val (childErase n.children c) n.is_word, true)
            | false, [(_, gc)] =>
              let merged : Radix_Node := .mk (child'.val ++ gc.val) gc.children gc.is_word
              some (.mk n.val (childUpdate n.children c merged) n.is_word, true)
            | _, _ =>
              some (.mk n.val (childUpdate n.children c child') n.is_word, true)
termination_by n _ _ => sizeOf n
decreasing_by
  have hsz : sizeOf child < sizeOf n.children := by
    generalize n.children = cs at h
    clear * - h
    induction cs with
    | nil => simp [childLookup] at h
    | cons e rest ih =>
      obtain ⟨k, m⟩ := e
      by_cases hk : k = c
      · simp [childLookup, hk] at h
        subst h
        simp
        omega
      · simp [childLookup, hk] at h
        have := ih h
        simp
        omega
  cases n
  simp [Radix_Node.children] at hsz ⊢
  omega

mutual

/-- `Radix_Trie::_complete`: collects, under `n`, every accumulated string
`base` that ends at a word node, skipping the empty accumulation. -/
def completeCollect : Radix_Node → List Char → List (List Char)
  | .mk _ cs iw, base =>
    (if iw = true ∧ base ≠ [] then [base] else []) ++ completeCollectList cs base

/-- Iteration of `_complete` over the child map (`new_base = base + entry.second->val`). -/
def completeCollectList : List (Char × Radix_Node) → List Char → List (List Char)
  | [], _ => []
  | (_, child) :: rest, base =>
    completeCollect child (base ++ child.val) ++ completeCollectList rest base

end

mutual

/-- `Radix_Trie::_print_list`: the words printed by `print("list")`, i.e. every
accumulated string `base` that ends at a word node. -/
def printList : Radix_Node → List Char → List (List Char)
  | .mk _ cs iw, base =>
    (if iw = true then [base] else []) ++ printListChildren cs base

/-- Iteration of `_print_list` over the child map. -/
def printListChildren : List (Char × Radix_Node) → List Char → List (List Char)
  | [], _ => []
  | (_, child) :: rest, base =>
    printList child (base ++ child.val) ++ printListChildren rest base

end

/-- `Radix_Trie::complete`: the prefix-consuming walk.  A query exhausted
strictly inside a label with all consumed characters matching continues the
collection with the label remainder as initial accumulation. -/
def completeGo : Radix_Node → List Char → List (List Char)
  | n, [] => completeCollect n []
  | .mk _ cs _, c :: p' =>
    match h : childLookup cs c with
    | none => []
    | some child =>
      let p := c :: p'
      let m := matchLen child.val p
      if m < child.val.length then
        if m = p.length then completeCollect child (child.val.drop m) else []
      else completeGo child (p.drop m)
termination_by n _ => sizeOf n
decreasing_by
  have hsz : sizeOf child < sizeOf cs := by
    clear * - h
    induction cs with
    | nil => simp [childLookup] at h
    | cons e rest ih =>
      obtain ⟨k, m⟩ := e
      by_cases hk : k = c
      · simp [childLookup, hk] at h
        subst h
        simp
        omega
      · simp [childLookup, hk] at h
        have := ih h
        simp
        omega
  simp
  omega

namespace Radix_Trie

/-- Public `insert` of class `Radix_Trie` (the tree is identified with its
root node). -/
def insert (t : Radix_Node) (word : List Char) : Radix_Node := insertGo t word

/-- Public `find` of class `Radix_Trie`; `ap` is the ` allow_partial` flag. -/
def find (t : Radix_Node) (v : List Char) (ap : Bool) : Option Radix_Node :=
  findGo t v ap

/-- Public `remove` of class `Radix_Trie`: `_remove(_root, word, 0)`, paired
with the updated tree; `none` when the run reads the word out of bounds. -/
def remove (t : Radix_Node) (word : List Char) : Option (Radix_Node × Bool) :=
  removeAux t word 0

/-- Public `complete` of class `Radix_Trie`: the contents of `out_vec`. -/
def complete (t : Radix_Node) (p : List Char) : List (List Char) :=
  completeGo t p

/-- The word list printed by `print("list")`. -/
def listWords (t : Radix_Node) : List (List Char) := printList t []

/-- Folding `insert` over a list of words starting from the fresh trie. -/
def buildTrie (ws : List (List Char)) : Radix_Node :=
  ws.foldl insert emptyTrie

end Radix_Trie

/-- Key uniqueness of the child map (structural in the C++ `unordered_map`). -/
def keysDistinct : List (Char × Radix_Node) → Bool
  | [] => true
  | (k, _) :: rest => !(rest.any fun e => e.1 == k) && keysDistinct rest

mutual

/-- Invariant of every non-root node of a tree built by the class: non-empty
label, word node or at least two children (maximal compaction), and
well-formed child map. -/
def nodeWF : Radix_Node → Bool
  | .mk v cs iw =>
    !v.isEmpty && (iw || decide (2 ≤ cs.length)) && keysDistinct cs && childrenWF cs

/-- Invariant of a child map: each child is keyed by the first character of
its label and is itself well formed. -/
def childrenWF : List (Char × Radix_Node) → Bool
  | [] => true
  | (k, child) :: rest =>
    (child.val.head? == some k) && nodeWF child && childrenWF rest

end

/-- Invariant of the tree as seen from the root (the root itself is exempt
from the label and compaction conditions). -/
def rootWF (t : Radix_Node) : Bool :=
  keysDistinct t.children && childrenWF t.children

mutual

/-- Compaction check of the claim: below the given node, no node is
simultaneously a non-word node and the parent of exactly one child. -/
def subOk : Radix_Node → Bool
  | .mk _ cs _ => childrenOk cs

/-- Compaction check for every node of a child map and its descendants. -/
def childrenOk : List (Char × Radix_Node) → Bool
  | [] => true
  | (_, child) :: rest =>
    (child.is_word || decide (child.children.length ≠ 1)) && subOk child &&
      childrenOk rest

end

/-- The tree states reachable through the public interface: the fresh trie,
followed by any sequence of `insert` and (defined) `remove` calls. -/
inductive Reachable : Radix_Node → Prop where
  | base : Reachable emptyTrie
  | ins (t : Radix_Node) (w : List Char) : Reachable t → Reachable (insertGo t w)
  | rem (t t' : Radix_Node) (b : Bool) (w : List Char) : Reachable t →
      removeAux t w 0 = some (t', b) → Reachable t'

@[simp] theorem Radix_Node.val_mk (v cs w) : (Radix_Node.mk v cs w).val = v := rfl

@[simp] theorem Radix_Node.children_mk (v cs w) :
    (Radix_Node.mk v cs w).children = cs := rfl

@[simp] theorem Radix_Node.is_word_mk (v cs w) :
    (Radix_Node.mk v cs w).is_word = w := rfl

@[simp] theorem Radix_Node.eta (n : Radix_Node) :
    Radix_Node.mk n.val n.children n.is_word = n := by
  cases n <;> rfl

/-- sizeOf bound used for the termination of the recursions that descend into
a looked-up child. -/
theorem childLookup_sizeOf {cs : List (Char × Radix_Node)} {c : Char}
    {n : Radix_Node} (h : childLookup cs c = some n) : sizeOf n < sizeOf cs := by
  induction cs with
  | nil => simp [childLookup] at h
  | cons e rest ih =>
    obtain ⟨k, m⟩ := e
    by_cases hk : k = c
    · simp [childLookup, hk] at h
      subst h
      simp
      omega
    · simp [childLookup, hk] at h
      have := ih h
      simp
      omega


section MatchLenLemmas

theorem matchLen_le_left (a b : List Char) : matchLen a b ≤ a.length := by
  induction a, b using matchLen.induct with
  | case1 as bh bs ih => simpa [matchLen] using Nat.succ_le_succ ih
  | case2 ah as bh bs hne => simp [matchLen, hne]
  | case3 a b hnc =>
    match a, b with
    | [], _ => simp [matchLen]
    | _ :: _, [] => simp [matchLen]
    | x :: xs, y :: ys => exact (hnc x xs y ys rfl rfl).elim

theorem matchLen_le_right (a b : List Char) : matchLen a b ≤ b.length := by
  induction a, b using matchLen.induct with
  | case1 as bh bs ih => simpa [matchLen] using Nat.succ_le_succ ih
  | case2 ah as bh bs hne => simp [matchLen, hne]
  | case3 a b hnc =>
    match a, b with
    | [], _ => simp [matchLen]
    | _ :: _, [] => simp [matchLen]
    | x :: xs, y :: ys => exact (hnc x xs y ys rfl rfl).elim

theorem matchLen_take (a b : List Char) :
    a.take (matchLen a b) = b.take (matchLen a b) := by
  induction a, b using matchLen.induct with
  | case1 as bh bs ih => simp [matchLen, ih]
  | case2 ah as bh bs hne => simp [matchLen, hne]
  | case3 a b hnc =>
    match a, b with
    | [], _ => simp [matchLen]
    | _ :: _, [] => simp [matchLen]
    | x :: xs, y :: ys => exact (hnc x xs y ys rfl rfl).elim

theorem matchLen_cons_self (c : Char) (as bs : List Char) :
    matchLen (c :: as) (c :: bs) = matchLen as bs + 1 := by
  simp [matchLen]

theorem matchLen_pos_of_head (a b : List Char) (c : Char)
    (ha : a.head? = some c) (hb : b.head? = some c) : 1 ≤ matchLen a b := by
  match a, b with
  | x :: xs, y :: ys =>
    simp at ha hb
    subst ha; subst hb
    simp [matchLen]
  | [], _ => simp at ha
  | _ :: _, [] => simp at hb

theorem matchLen_mismatch (a b : List Char)
    (ha : matchLen a b < a.length) (hb : matchLen a b < b.length) :
    a.getD (matchLen a b) (Char.ofNat 0) ≠ b.getD (matchLen a b) (Char.ofNat 0) := by
  induction a, b using matchLen.induct with
  | case1 as bh bs ih =>
    rw [matchLen_cons_self] at ha hb ⊢
    simp at ha hb
    simpa using ih ha hb
  | case2 ah as bh bs hne => simpa [matchLen, hne] using hne
  | case3 a b hnc =>
    match a, b with
    | [], _ => simp [matchLen] at ha
    | _ :: _, [] => simp [matchLen] at hb
    | x :: xs, y :: ys => exact (hnc x xs y ys rfl rfl).elim

theorem matchLen_of_left_prefix (a b : List Char) (h : a <+: b) :
    matchLen a b = a.length := by
  induction a, b using matchLen.induct with
  | case1 as bh bs ih =>
    rw [matchLen_cons_self]
    simp only [List.cons_prefix_cons] at h
    simp [ih h.2]
  | case2 ah as bh bs hne =>
    simp only [List.cons_prefix_cons] at h
    exact absurd h.1 hne
  | case3 a b hnc =>
    match a, b with
    | [], _ => simp [matchLen]
    | x :: xs, [] => simp [List.prefix_nil] at h
    | x :: xs, y :: ys => exact (hnc x xs y ys rfl rfl).elim

theorem left_prefix_of_matchLen (a b : List Char) (h : matchLen a b = a.length) :
    a <+: b := by
  have := matchLen_take a b
  rw [h, List.take_length] at this
  rw [this]
  exact List.take_prefix _ _

end MatchLenLemmas

section ChildMapLemmas

theorem childLookup_cons (k : Char) (m : Radix_Node) (rest : List (Char × Radix_Node))
    (c : Char) : childLookup ((k, m) :: rest) c =
      if k = c then some m else childLookup rest c := rfl

theorem childUpdate_of_lookup_none (cs : List (Char × Radix_Node)) (c : Char)
    (v : Radix_Node) (h : childLookup cs c = none) :
    childUpdate cs c v = cs ++ [(c, v)] := by
  induction cs with
  | nil => rfl
  | cons e rest ih =>
    obtain ⟨k, m⟩ := e
    rw [childLookup_cons] at h
    by_cases hk : k = c
    · simp [hk] at h
    · rw [if_neg hk] at h
      simp [childUpdate, hk, ih h]

theorem childUpdate_self (cs : List (Char × Radix_Node)) (c : Char)
    (v : Radix_Node) (h : childLookup cs c = some v) :
    childUpdate cs c v = cs := by
  induction cs with
  | nil => simp [childLookup] at h
  | cons e rest ih =>
    obtain ⟨k, m⟩ := e
    rw [childLookup_cons] at h
    by_cases hk : k = c
    · simp [hk] at h
      simp [childUpdate, hk, h]
    · simp [hk] at h
      simp [childUpdate, hk, ih h]

theorem childUpdate_length (cs : List (Char × Radix_Node)) (c : Char)
    (v : Radix_Node) (h : (childLookup cs c).isSome) :
    (childUpdate cs c v).length = cs.length := by
  induction cs with
  | nil => simp [childLookup] at h
  | cons e rest ih =>
    obtain ⟨k, m⟩ := e
    rw [childLookup_cons] at h
    by_cases hk : k = c
    · simp [childUpdate, hk]
    · simp [hk] at h
      simp [childUpdate, hk, ih h]

theorem childErase_length (cs : List (Char × Radix_Node)) (c : Char) :
    (childErase cs c).length = cs.length ∨
      (childErase cs c).length + 1 = cs.length := by
  induction cs with
  | nil => simp [childErase]
  | cons e rest ih =>
    obtain ⟨k, m⟩ := e
    by_cases hk : k = c
    · simp [childErase, hk]
    · rcases ih with h | h <;> simp [childErase, hk] <;> omega

end ChildMapLemmas

section UnfoldingEquations

theorem insertGo_nil (v : List Char) (cs : List (Char × Radix_Node)) (iw : Bool) :
    insertGo (.mk v cs iw) [] = .mk v cs true := by
  rw [insertGo]

theorem insertGo_cons_none (v : List Char) (cs : List (Char × Radix_Node))
    (iw : Bool) (c : Char) (w' : List Char) (h : childLookup cs c = none) :
    insertGo (.mk v cs iw) (c :: w') =
      .mk v (childUpdate cs c (.mk (c :: w') [] true)) iw := by
  rw [insertGo]
  split
  · rfl
  · rename_i child heq
    rw [h] at heq
    cases heq

theorem insertGo_cons_mismatch (v : List Char) (cs : List (Char × Radix_Node))
    (iw : Bool) (c : Char) (w' : List Char) (child : Radix_Node)
    (h : childLookup cs c = some child)
    (hm : matchLen child.val (c :: w') < child.val.length)
    (hw : matchLen child.val (c :: w') < (c :: w').length) :
    insertGo (.mk v cs iw) (c :: w') =
      .mk v (childUpdate cs (child.val.getD 0 (Char.ofNat 0))
        (.mk (child.val.take (matchLen child.val (c :: w')))
          (childUpdate
            (childUpdate [] ((c :: w').getD (matchLen child.val (c :: w')) (Char.ofNat 0))
              (.mk ((c :: w').drop (matchLen child.val (c :: w'))) [] true))
            (child.val.getD (matchLen child.val (c :: w')) (Char.ofNat 0))
            (.mk (child.val.drop (matchLen child.val (c :: w'))) child.children
              child.is_word)) false)) iw := by
  rw [insertGo]
  split
  · rename_i heq
    rw [h] at heq
    cases heq
  · rename_i child2 heq
    rw [h] at heq
    injection heq with heq2
    subst heq2
    rw [if_pos hm, if_pos hw]

theorem insertGo_cons_inside (v : List Char) (cs : List (Char × Radix_Node))
    (iw : Bool) (c : Char) (w' : List Char) (child : Radix_Node)
    (h : childLookup cs c = some child)
    (hm : matchLen child.val (c :: w') < child.val.length)
    (hw : ¬ matchLen child.val (c :: w') < (c :: w').length) :
    insertGo (.mk v cs iw) (c :: w') =
      .mk v (childUpdate cs (child.val.getD 0 (Char.ofNat 0))
        (.mk (child.val.take (matchLen child.val (c :: w')))
          (childUpdate [] (child.val.getD (matchLen child.val (c :: w')) (Char.ofNat 0))
            (.mk (child.val.drop (matchLen child.val (c :: w'))) child.children
              child.is_word)) true)) iw := by
  rw [insertGo]
  split
  · rename_i heq
    rw [h] at heq
    cases heq
  · rename_i child2 heq
    rw [h] at heq
    injection heq with heq2
    subst heq2
    rw [if_pos hm, if_neg hw]

theorem insertGo_cons_descend (v : List Char) (cs : List (Char × Radix_Node))
    (iw : Bool) (c : Char) (w' : List Char) (child : Radix_Node)
    (h : childLookup cs c = some child)
    (hm : ¬ matchLen child.val (c :: w') < child.val.length) :
    insertGo (.mk v cs iw) (c :: w') =
      .mk v (childUpdate cs c
        (insertGo child ((c :: w').drop (matchLen child.val (c :: w'))))) iw := by
  rw [insertGo]
  split
  · rename_i heq
    rw [h] at heq
    cases heq
  · rename_i child2 heq
    rw [h] at heq
    injection heq with heq2
    subst heq2
    rw [if_neg hm]

theorem findGo_nil (n : Radix_Node) (ap : Bool) : findGo n [] ap = some n := by
  rw [findGo]

theorem findGo_cons_none (v : List Char) (cs : List (Char × Radix_Node))
    (iw : Bool) (c : Char) (v' : List Char) (ap : Bool)
    (h : childLookup cs c = none) :
    findGo (.mk v cs iw) (c :: v') ap = none := by
  rw [findGo]
  split
  · rfl
  · rename_i child heq
    rw [h] at heq
    cases heq

theorem findGo_cons_some (v : List Char) (cs : List (Char × Radix_Node))
    (iw : Bool) (c : Char) (v' : List Char) (ap : Bool) (child : Radix_Node)
    (h : childLookup cs c = some child) :
    findGo (.mk v cs iw) (c :: v') ap =
      (if matchLen child.val (c :: v') < child.val.length then
        if matchLen child.val (c :: v') = (c :: v').length ∧ ap = true then some child
        else none
      else findGo child ((c :: v').drop (matchLen child.val (c :: v'))) ap) := by
  rw [findGo]
  split
  · rename_i heq
    rw [h] at heq
    cases heq
  · rename_i child2 heq
    rw [h] at heq
    injection heq with heq2
    subst heq2
    rfl

theorem completeGo_nil (n : Radix_Node) : completeGo n [] = completeCollect n [] := by
  rw [completeGo]

theorem completeGo_cons_none (v : List Char) (cs : List (Char × Radix_Node))
    (iw : Bool) (c : Char) (p' : List Char) (h : childLookup cs c = none) :
    completeGo (.mk v cs iw) (c :: p') = [] := by
  rw [completeGo]
  split
  · rfl
  · rename_i child heq
    rw [h] at heq
    cases heq

theorem completeGo_cons_some (v : List Char) (cs : List (Char × Radix_Node))
    (iw : Bool) (c : Char) (p' : List Char) (child : Radix_Node)
    (h : childLookup cs c = some child) :
    completeGo (.mk v cs iw) (c :: p') =
      (if matchLen child.val (c :: p') < child.val.length then
        if matchLen child.val (c :: p') = (c :: p').length then
          completeCollect child (child.val.drop (matchLen child.val (c :: p')))
        else []
      else completeGo child ((c :: p').drop (matchLen child.val (c :: p')))) := by
  rw [completeGo]
  split
  · rename_i heq
    rw [h] at heq
    cases heq
  · rename_i child2 heq
    rw [h] at heq
    injection heq with heq2
    subst heq2
    rfl

theorem removeAux_end (n : Radix_Node) (w : List Char) (i : Nat)
    (hi : i = w.length) :
    removeAux n w i =
      (if n.is_word = false then some (n, false)
       else some (.mk n.val n.children false, true)) := by
  rw [removeAux]
  rw [if_pos hi]

theorem removeAux_oob (n : Radix_Node) (w : List Char) (i : Nat)
    (hi : ¬ i = w.length) (hg : w.get? i = none) :
    removeAux n w i = none := by
  rw [removeAux]
  rw [if_neg hi, hg]

theorem removeAux_no_child (n : Radix_Node) (w : List Char) (i : Nat) (c : Char)
    (hi : ¬ i = w.length) (hg : w.get? i = some c)
    (h : childLookup n.children c = none) :
    removeAux n w i = some (n, false) := by
  rw [removeAux]
  rw [if_neg hi, hg]
  split
  · rename_i heq
    cases heq
  · rename_i c2 heq
    injection heq with heq2
    subst heq2
    split
    · rfl
    · rename_i child heq'
      rw [h] at heq'
      cases heq'

theorem removeAux_child (n : Radix_Node) (w : List Char) (i : Nat) (c : Char)
    (child : Radix_Node) (hi : ¬ i = w.length) (hg : w.get? i = some c)
    (h : childLookup n.children c = some child) :
    removeAux n w i =
      (match removeAux child w (i + child.val.length) with
       | none => none
       | some (child', false) =>
         some (.mk n.val (childUpdate n.children c child') n.is_word, false)
       | some (child', true) =>
         match child'.is_word, child'.children with
         | false, [] =>
           some (.mk n.val (childErase n.children c) n.is_word, true)
         | false, [(_, gc)] =>
           some (.mk n.val
             (childUpdate n.children c (.mk (child'.val ++ gc.val) gc.children gc.is_word))
             n.is_word, true)
         | _, _ =>
           some (.mk n.val (childUpdate n.children c child') n.is_word, true)) := by
  rw [removeAux]
  rw [if_neg hi, hg]
  split
  · rename_i heq
    cases heq
  · rename_i c2 heq
    injection heq with heq2
    subst heq2
    split
    · rename_i heq'
      rw [h] at heq'
      cases heq'
    · rename_i child2 heq'
      rw [h] at heq'
      injection heq' with heq2'
      subst heq2'
      rfl

end UnfoldingEquations

section WellFormedness

theorem keysDistinct_iff (cs : List (Char × Radix_Node)) :
    keysDistinct cs = true ↔ (cs.map Prod.fst).Nodup := by
  induction cs with
  | nil => simp [keysDistinct]
  | cons e rest ih =>
    obtain ⟨k, m⟩ := e
    rw [List.map_cons, List.nodup_cons, ← ih]
    simp only [keysDistinct, Bool.and_eq_true, Bool.not_eq_true']
    rw [List.any_eq_false]
    constructor
    · rintro ⟨h1, h2⟩
      refine ⟨?_, h2⟩
      intro hmem
      obtain ⟨a, hab, hk⟩ := List.mem_map.mp hmem
      have h3 := h1 a hab
      simp only [beq_iff_eq] at h3
      exact h3 hk
    · rintro ⟨h1, h2⟩
      refine ⟨?_, h2⟩
      intro a hab
      simp only [beq_iff_eq]
      intro hk
      exact h1 (List.mem_map.mpr ⟨a, hab, hk⟩)

theorem childrenWF_forall (cs : List (Char × Radix_Node)) :
    childrenWF cs = true ↔
      ∀ e ∈ cs, e.2.val.head? = some e.1 ∧ nodeWF e.2 = true := by
  induction cs with
  | nil => simp [childrenWF]
  | cons e rest ih =>
    obtain ⟨k, m⟩ := e
    simp [childrenWF, ih]

theorem nodeWF_mk (v : List Char) (cs : List (Char × Radix_Node)) (iw : Bool) :
    nodeWF (.mk v cs iw) = true ↔
      v ≠ [] ∧ (iw = true ∨ 2 ≤ cs.length) ∧ keysDistinct cs = true ∧
        childrenWF cs = true := by
  simp [nodeWF]
  tauto

theorem nodeWF_parts (n : Radix_Node) (h : nodeWF n = true) :
    n.val ≠ [] ∧ (n.is_word = true ∨ 2 ≤ n.children.length) ∧
      keysDistinct n.children = true ∧ childrenWF n.children = true := by
  obtain ⟨v, cs, iw⟩ := n
  exact (nodeWF_mk v cs iw).mp h

theorem childLookup_eq_none_iff (cs : List (Char × Radix_Node)) (c : Char) :
    childLookup cs c = none ↔ c ∉ cs.map Prod.fst := by
  induction cs with
  | nil => simp [childLookup]
  | cons e rest ih =>
    obtain ⟨k, m⟩ := e
    rw [childLookup_cons]
    by_cases hk : k = c
    · subst hk
      simp
    · rw [if_neg hk, List.map_cons]
      simp only [List.mem_cons, not_or, ih]
      constructor
      · exact fun h => ⟨fun hke => hk hke.symm, h⟩
      · exact fun h => h.2

theorem childLookup_mem (cs : List (Char × Radix_Node)) (c : Char)
    (child : Radix_Node) (h : childLookup cs c = some child) : (c, child) ∈ cs := by
  induction cs with
  | nil => simp [childLookup] at h
  | cons e rest ih =>
    obtain ⟨k, m⟩ := e
    rw [childLookup_cons] at h
    by_cases hk : k = c
    · rw [if_pos hk] at h
      subst hk
      simp at h
      simp [h]
    · rw [if_neg hk] at h
      exact List.mem_cons_of_mem _ (ih h)

theorem childrenWF_lookup (cs : List (Char × Radix_Node)) (c : Char)
    (child : Radix_Node) (hwf : childrenWF cs = true)
    (h : childLookup cs c = some child) :
    child.val.head? = some c ∧ nodeWF child = true :=
  (childrenWF_forall cs).mp hwf _ (childLookup_mem cs c child h)

theorem childUpdate_mem (cs : List (Char × Radix_Node)) (c : Char)
    (v : Radix_Node) (e : Char × Radix_Node) (h : e ∈ childUpdate cs c v) :
    e = (c, v) ∨ e ∈ cs := by
  induction cs with
  | nil => simp [childUpdate] at h; simp [h]
  | cons e' rest ih =>
    obtain ⟨k, m⟩ := e'
    by_cases hk : k = c
    · simp [childUpdate, hk] at h
      rcases h with h | h
      · left; simp [h]
      · right; exact List.mem_cons_of_mem _ h
    · simp [childUpdate, hk] at h
      rcases h with h | h
      · right; simp [h]
      · rcases ih h with h' | h'
        · left; exact h'
        · right; exact List.mem_cons_of_mem _ h'

theorem childUpdate_map_fst (cs : List (Char × Radix_Node)) (c : Char)
    (v : Radix_Node) (h : (childLookup cs c).isSome) :
    (childUpdate cs c v).map Prod.fst = cs.map Prod.fst := by
  induction cs with
  | nil => simp [childLookup] at h
  | cons e rest ih =>
    obtain ⟨k, m⟩ := e
    rw [childLookup_cons] at h
    by_cases hk : k = c
    · simp [childUpdate, hk]
    · rw [if_neg hk] at h
      simp [childUpdate, hk, ih h]

theorem childErase_sublist (cs : List (Char × Radix_Node)) (c : Char) :
    List.Sublist (childErase cs c) cs := by
  induction cs with
  | nil => simp [childErase]
  | cons e rest ih =>
    obtain ⟨k, m⟩ := e
    by_cases hk : k = c
    · simp [childErase, hk]
    · have he : childErase ((k, m) :: rest) c = (k, m) :: childErase rest c := by
        simp [childErase, hk]
      rw [he]
      exact List.Sublist.cons₂ (k, m) ih

theorem keysDistinct_childUpdate_some (cs : List (Char × Radix_Node)) (c : Char)
    (v : Radix_Node) (hs : (childLookup cs c).isSome)
    (h : keysDistinct cs = true) : keysDistinct (childUpdate cs c v) = true := by
  rw [keysDistinct_iff] at h ⊢
  rwa [childUpdate_map_fst cs c v hs]

theorem keysDistinct_childUpdate_none (cs : List (Char × Radix_Node)) (c : Char)
    (v : Radix_Node) (hn : childLookup cs c = none)
    (h : keysDistinct cs = true) : keysDistinct (childUpdate cs c v) = true := by
  rw [keysDistinct_iff] at h ⊢
  rw [childUpdate_of_lookup_none cs c v hn]
  simp
  rw [List.nodup_append]
  refine ⟨h, by simp, ?_⟩
  simp [List.disjoint_right]
  rw [childLookup_eq_none_iff] at hn
  simpa using hn

theorem keysDistinct_childErase (cs : List (Char × Radix_Node)) (c : Char)
    (h : keysDistinct cs = true) : keysDistinct (childErase cs c) = true := by
  rw [keysDistinct_iff] at h ⊢
  exact (List.Sublist.map Prod.fst (childErase_sublist cs c)).nodup h

theorem childrenWF_childUpdate (cs : List (Char × Radix_Node)) (c : Char)
    (v : Radix_Node) (hwf : childrenWF cs = true)
    (hv : v.val.head? = some c) (hn : nodeWF v = true) :
    childrenWF (childUpdate cs c v) = true := by
  rw [childrenWF_forall] at hwf ⊢
  intro e he
  rcases childUpdate_mem cs c v e he with h | h
  · subst h; exact ⟨hv, hn⟩
  · exact hwf e h

theorem childrenWF_childErase (cs : List (Char × Radix_Node)) (c : Char)
    (hwf : childrenWF cs = true) : childrenWF (childErase cs c) = true := by
  rw [childrenWF_forall] at hwf ⊢
  intro e he
  exact hwf e (List.Sublist.mem he (childErase_sublist cs c))

end WellFormedness

section NestedInduction

theorem mem_children_sizeOf {k : Char} {child : Radix_Node}
    {cs : List (Char × Radix_Node)} (h : (k, child) ∈ cs) :
    sizeOf child < sizeOf cs := by
  have h1 := List.sizeOf_lt_of_mem h
  have h2 : sizeOf child < sizeOf (k, child) := by
    simp only [Prod.mk.sizeOf_spec]
    omega
  omega

/-- Induction over a node through its child list: to prove a property of
every node it is enough to prove it for a node given it for each child. -/
theorem Radix_Node.nestedRec (motive : Radix_Node → Prop)
    (step : ∀ v cs iw, (∀ k child, (k, child) ∈ cs → motive child) →
      motive (.mk v cs iw)) :
    ∀ n, motive n
  | .mk v cs iw =>
    step v cs iw (fun _ child hmem =>
      Radix_Node.nestedRec motive step child)
termination_by n => sizeOf n
decreasing_by
  have := mem_children_sizeOf hmem
  simp
  omega

end NestedInduction

section PrintListLemmas

theorem printList_mk (v : List Char) (cs : List (Char × Radix_Node)) (iw : Bool)
    (base : List Char) :
    printList (.mk v cs iw) base =
      (if iw = true then [base] else []) ++ printListChildren cs base := by
  rw [printList]

@[simp] theorem printListChildren_nil (base : List Char) :
    printListChildren [] base = [] := by
  rw [printListChildren]

@[simp] theorem printListChildren_cons (k : Char) (child : Radix_Node)
    (rest : List (Char × Radix_Node)) (base : List Char) :
    printListChildren ((k, child) :: rest) base =
      printList child (base ++ child.val) ++ printListChildren rest base := by
  rw [printListChildren]

/-- `_print_list` never reads the label of the node it starts from. -/
theorem printList_val_irrel (v v' : List Char) (cs : List (Char × Radix_Node))
    (iw : Bool) (base : List Char) :
    printList (.mk v cs iw) base = printList (.mk v' cs iw) base := by
  rw [printList_mk, printList_mk]

theorem printListChildren_append (cs1 cs2 : List (Char × Radix_Node))
    (base : List Char) :
    printListChildren (cs1 ++ cs2) base =
      printListChildren cs1 base ++ printListChildren cs2 base := by
  induction cs1 with
  | nil => simp
  | cons e rest ih =>
    obtain ⟨k, m⟩ := e
    simp [ih]

theorem printList_base (n : Radix_Node) :
    ∀ a b, printList n (a ++ b) = (printList n b).map (fun x => a ++ x) := by
  induction n using Radix_Node.nestedRec with
  | step v cs iw ih =>
    intro a b
    rw [printList_mk, printList_mk]
    rw [List.map_append]
    congr 1
    · cases iw <;> simp
    · clear v
      induction cs with
      | nil => simp
      | cons e rest ihr =>
        obtain ⟨k, m⟩ := e
        have hm := ih k m (List.mem_cons_self _ _)
        simp only [printListChildren_cons, List.map_append]
        rw [List.append_assoc, hm a (b ++ m.val)]
        rw [ihr (fun k' child h => ih k' child (List.mem_cons_of_mem _ h))]

theorem printList_base_nil (n : Radix_Node) (a : List Char) :
    printList n a = (printList n []).map (fun x => a ++ x) := by
  have := printList_base n a []
  rwa [List.append_nil] at this

theorem printListChildren_mem_pre :
    ∀ (cs : List (Char × Radix_Node)) (b x : List Char),
      (∀ k child, (k, child) ∈ cs → ∀ b' x', x' ∈ printList child b' → b' <+: x') →
      x ∈ printListChildren cs b → b <+: x
  | [], b, x, _, hx => by simp at hx
  | (k, m) :: rest, b, x, hrec, hx => by
    rcases List.mem_append.mp (by simpa using hx) with h | h
    · exact (List.prefix_append b m.val).trans (hrec k m (by simp) _ x h)
    · exact printListChildren_mem_pre rest b x
        (fun k' child hh => hrec k' child (List.mem_cons_of_mem _ hh)) h

theorem printList_mem_pre (n : Radix_Node) :
    ∀ b x, x ∈ printList n b → b <+: x := by
  induction n using Radix_Node.nestedRec with
  | step v cs iw ih =>
    intro b x hx
    rw [printList_mk] at hx
    rcases List.mem_append.mp hx with hx | hx
    · cases iw
      · simp at hx
      · simp at hx
        subst hx
        exact List.prefix_refl _
    · exact printListChildren_mem_pre cs b x ih hx

theorem childLookup_mem_keys (cs : List (Char × Radix_Node)) (c : Char)
    (child : Radix_Node) (h : childLookup cs c = some child) :
    c ∈ cs.map Prod.fst :=
  List.mem_map.mpr ⟨(c, child), childLookup_mem cs c child h, rfl⟩

theorem printListChildren_mem_entry (cs : List (Char × Radix_Node))
    (b x : List Char) (hwf : childrenWF cs = true) (hd : keysDistinct cs = true)
    (h : x ∈ printListChildren cs b) :
    ∃ k child, childLookup cs k = some child ∧
      x ∈ printList child (b ++ child.val) ∧ b ++ [k] <+: x := by
  induction cs with
  | nil => simp at h
  | cons e rest ih =>
    obtain ⟨k0, m0⟩ := e
    rw [childrenWF_forall] at hwf
    have hd' : keysDistinct rest = true ∧ k0 ∉ rest.map Prod.fst := by
      rw [keysDistinct_iff] at hd
      simp at hd
      rw [keysDistinct_iff]
      exact ⟨hd.2, by simpa using hd.1⟩
    rcases List.mem_append.mp (by simpa using h) with hx | hx
    · refine ⟨k0, m0, by simp [childLookup_cons], hx, ?_⟩
      have hpre := printList_mem_pre m0 (b ++ m0.val) x hx
      have hv : m0.val.head? = some k0 := (hwf (k0, m0) (by simp)).1
      obtain ⟨tl, htl⟩ : ∃ tl, m0.val = k0 :: tl := by
        cases hval : m0.val with
        | nil => rw [hval] at hv; simp at hv
        | cons hh tt =>
          rw [hval] at hv
          simp at hv
          exact ⟨tt, by rw [hv]⟩
      refine List.IsPrefix.trans ?_ hpre
      rw [htl]
      simp
    · obtain ⟨k, child, hlk, hx', hpre⟩ :=
        ih (by rw [childrenWF_forall]; exact fun e he => hwf e (List.mem_cons_of_mem _ he))
          hd'.1 hx
      refine ⟨k, child, ?_, hx', hpre⟩
      rw [childLookup_cons]
      have : k0 ≠ k := by
        intro hkk
        exact hd'.2 (hkk ▸ childLookup_mem_keys rest k child hlk)
      rw [if_neg this]
      exact hlk

theorem printListChildren_mem_of_lookup (cs : List (Char × Radix_Node))
    (b : List Char) (c : Char) (child : Radix_Node) (x : List Char)
    (hlk : childLookup cs c = some child)
    (hx : x ∈ printList child (b ++ child.val)) :
    x ∈ printListChildren cs b := by
  induction cs with
  | nil => simp [childLookup] at hlk
  | cons e rest ih =>
    obtain ⟨k, m⟩ := e
    rw [childLookup_cons] at hlk
    by_cases hk : k = c
    · rw [if_pos hk] at hlk
      simp at hlk
      subst hlk
      simp
      exact Or.inl hx
    · rw [if_neg hk] at hlk
      simp
      exact Or.inr (ih hlk)

theorem printListChildren_childUpdate_iff (cs : List (Char × Radix_Node))
    (b : List Char) (c : Char) (child v : Radix_Node) (tgt : List Char)
    (hlk : childLookup cs c = some child)
    (hmid : ∀ x, x ∈ printList v (b ++ v.val) ↔
      x = tgt ∨ x ∈ printList child (b ++ child.val)) :
    ∀ x, x ∈ printListChildren (childUpdate cs c v) b ↔
      x = tgt ∨ x ∈ printListChildren cs b := by
  induction cs with
  | nil => simp [childLookup] at hlk
  | cons e rest ih =>
    obtain ⟨k, m⟩ := e
    intro x
    rw [childLookup_cons] at hlk
    by_cases hk : k = c
    · rw [if_pos hk] at hlk
      simp at hlk
      subst hk
      have hcu : childUpdate ((k, m) :: rest) k v = (k, v) :: rest := by
        simp [childUpdate]
      rw [hcu]
      simp only [printListChildren_cons, List.mem_append]
      rw [hmid x, hlk]
      tauto
    · rw [if_neg hk] at hlk
      have hcu : childUpdate ((k, m) :: rest) c v = (k, m) :: childUpdate rest c v := by
        simp [childUpdate, hk]
      rw [hcu]
      simp only [printListChildren_cons, List.mem_append]
      rw [ih hlk x]
      tauto

/-- Under the compaction invariant every well-formed node has a word at or
below it. -/
theorem nodeWF_exists_word (n : Radix_Node) :
    ∀ b, nodeWF n = true → ∃ x, x ∈ printList n b ∧ b <+: x := by
  induction n using Radix_Node.nestedRec with
  | step v cs iw ih =>
    intro b h
    rw [nodeWF_mk] at h
    obtain ⟨-, hcomp, -, hwf⟩ := h
    cases iw with
    | true =>
      exact ⟨b, by simp [printList_mk], List.prefix_refl _⟩
    | false =>
      rcases hcomp with h2 | h2
      · simp at h2
      · cases cs with
        | nil => simp at h2
        | cons e rest =>
          obtain ⟨k, m⟩ := e
          rw [childrenWF_forall] at hwf
          have hm : nodeWF m = true := (hwf (k, m) (by simp)).2
          obtain ⟨x, hx, hpre⟩ := ih k m (by simp) (b ++ m.val) hm
          refine ⟨x, ?_, (List.prefix_append b m.val).trans hpre⟩
          rw [printList_mk]
          simp
          exact Or.inl hx

end PrintListLemmas

section CompleteCollectLemmas

theorem completeCollect_mk (v : List Char) (cs : List (Char × Radix_Node))
    (iw : Bool) (base : List Char) :
    completeCollect (.mk v cs iw) base =
      (if iw = true ∧ base ≠ [] then [base] else []) ++
        completeCollectList cs base := by
  rw [completeCollect]

@[simp] theorem completeCollectList_nil (base : List Char) :
    completeCollectList [] base = [] := by
  rw [completeCollectList]

@[simp] theorem completeCollectList_cons (k : Char) (child : Radix_Node)
    (rest : List (Char × Radix_Node)) (base : List Char) :
    completeCollectList ((k, child) :: rest) base =
      completeCollect child (base ++ child.val) ++ completeCollectList rest base := by
  rw [completeCollectList]

theorem completeCollectList_mem_iff :
    ∀ (cs : List (Char × Radix_Node)) (b x : List Char),
      (∀ k child, (k, child) ∈ cs → ∀ b' x',
        x' ∈ completeCollect child b' ↔ x' ∈ printList child b' ∧ x' ≠ []) →
      (x ∈ completeCollectList cs b ↔ x ∈ printListChildren cs b ∧ x ≠ [])
  | [], b, x, _ => by simp
  | (k, m) :: rest, b, x, hrec => by
    simp only [completeCollectList_cons, printListChildren_cons, List.mem_append]
    rw [hrec k m (by simp) (b ++ m.val) x,
      completeCollectList_mem_iff rest b x
        (fun k' child hh => hrec k' child (List.mem_cons_of_mem _ hh))]
    tauto

/-- The `_complete` collection is the `_print_list` word set without the
empty accumulation (which `_complete` skips at every node). -/
theorem completeCollect_mem_iff (n : Radix_Node) :
    ∀ b x, x ∈ completeCollect n b ↔ x ∈ printList n b ∧ x ≠ [] := by
  induction n using Radix_Node.nestedRec with
  | step v cs iw ih =>
    intro b x
    rw [completeCollect_mk, printList_mk]
    simp only [List.mem_append]
    rw [completeCollectList_mem_iff cs b x ih]
    by_cases hb : b = []
    · subst hb
      cases iw <;> simp <;> tauto
    · cases iw with
      | false => simp [hb]
      | true =>
        simp [hb]
        constructor
        · rintro (h | ⟨h1, h2⟩)
          · exact ⟨Or.inl h, h ▸ hb⟩
          · exact ⟨Or.inr h1, h2⟩
        · rintro ⟨h1 | h1, h2⟩
          · exact Or.inl h1
          · exact Or.inr ⟨h1, h2⟩

end CompleteCollectLemmas

section InsertPreservation
theorem keysDistinct_nil : keysDistinct [] = true := rfl

theorem childrenWF_nil : childrenWF [] = true := by rw [childrenWF]

theorem get?_eq_getD_of_lt (l : List Char) (m : Nat) (d : Char) (h : m < l.length) :
    l.get? m = some (l.getD m d) := by
  rw [List.get?_eq_getElem?, List.getD_eq_getElem?_getD]
  rw [List.getElem?_eq_getElem h]
  rfl

theorem getD_zero_of_head (l : List Char) (c d : Char) (h : l.head? = some c) :
    l.getD 0 d = c := by
  cases l with
  | nil => simp at h
  | cons a as =>
    simp at h
    simp [h]

theorem head?_take_of_pos (l : List Char) (m : Nat) (h : 1 ≤ m) :
    (l.take m).head? = l.head? := by
  cases l with
  | nil => simp
  | cons a as =>
    cases m with
    | zero => omega
    | succ k => simp

theorem head?_drop_eq_get? (l : List Char) (m : Nat) :
    (l.drop m).head? = l.get? m := by
  rw [List.head?_drop, List.get?_eq_getElem?]

theorem take_ne_nil_of_lt (l : List Char) (m : Nat) (h1 : 1 ≤ m)
    (h2 : m < l.length) : l.take m ≠ [] := by
  intro hnil
  have hlen := congrArg List.length hnil
  rw [List.length_take] at hlen
  simp only [List.length_nil] at hlen
  omega

theorem drop_ne_nil_of_lt (l : List Char) (m : Nat) (h : m < l.length) :
    l.drop m ≠ [] := by
  intro hnil
  have := congrArg List.length hnil
  simp at this
  omega

theorem nodeWF_of_parts (n : Radix_Node) (h1 : n.val ≠ [])
    (h2 : n.is_word = true ∨ 2 ≤ n.children.length)
    (h3 : keysDistinct n.children = true) (h4 : childrenWF n.children = true) :
    nodeWF n = true := by
  obtain ⟨v, cs, iw⟩ := n
  rw [nodeWF_mk]
  exact ⟨h1, h2, h3, h4⟩

theorem keysDistinct_single (a : Char) (x : Radix_Node) :
    keysDistinct [(a, x)] = true := by
  simp [keysDistinct]

theorem keysDistinct_two (a b : Char) (x y : Radix_Node) (h : ¬ a = b) :
    keysDistinct [(a, x), (b, y)] = true := by
  simp [keysDistinct]
  exact fun hh => h hh.symm

theorem childrenWF_single (a : Char) (x : Radix_Node)
    (hx : x.val.head? = some a) (hnx : nodeWF x = true) :
    childrenWF [(a, x)] = true := by
  rw [childrenWF_forall]
  intro e he
  simp at he
  subst he
  exact ⟨hx, hnx⟩

theorem childrenWF_two (a b : Char) (x y : Radix_Node)
    (hx : x.val.head? = some a) (hnx : nodeWF x = true)
    (hy : y.val.head? = some b) (hny : nodeWF y = true) :
    childrenWF [(a, x), (b, y)] = true := by
  rw [childrenWF_forall]
  intro e he
  simp at he
  rcases he with he | he
  · subst he
    exact ⟨hx, hnx⟩
  · subst he
    exact ⟨hy, hny⟩

theorem head?_of_drop_lt (l : List Char) (m : Nat) (h : m < l.length) :
    (l.drop m).head? = some (l.getD m (Char.ofNat 0)) := by
  rw [head?_drop_eq_get?, get?_eq_getD_of_lt _ m (Char.ofNat 0) h]

theorem insertGo_wf :
    ∀ (n : Radix_Node) (w : List Char),
      keysDistinct n.children = true → childrenWF n.children = true →
      (insertGo n w).val = n.val ∧
      (n.is_word = true → (insertGo n w).is_word = true) ∧
      n.children.length ≤ (insertGo n w).children.length ∧
      keysDistinct (insertGo n w).children = true ∧
      childrenWF (insertGo n w).children = true := by
  intro n w
  induction n, w using insertGo.induct with
  | case1 v cs iw =>
    intro hd hc
    rw [insertGo_nil]
    exact ⟨rfl, fun _ => rfl, Nat.le_refl _, hd, hc⟩
  | case2 v cs iw c w' hnone =>
    intro hd hc
    rw [insertGo_cons_none v cs iw c w' hnone]
    refine ⟨rfl, fun h => h, ?_, ?_, ?_⟩
    · show cs.length ≤ (childUpdate cs c (.mk (c :: w') [] true)).length
      rw [childUpdate_of_lookup_none cs c _ hnone]
      simp
    · show keysDistinct (childUpdate cs c (.mk (c :: w') [] true)) = true
      exact keysDistinct_childUpdate_none cs c _ hnone hd
    · show childrenWF (childUpdate cs c (.mk (c :: w') [] true)) = true
      refine childrenWF_childUpdate cs c _ hc (by simp) ?_
      exact nodeWF_of_parts _ (by simp) (Or.inl rfl) rfl childrenWF_nil
  | case3 v cs iw c w' child hlk wlet mlet hm hw =>
    intro hd hc
    obtain ⟨hhead, hnwf⟩ := childrenWF_lookup cs c child hc hlk
    obtain ⟨hvne, hcomp, hkd, hcwf⟩ := nodeWF_parts child hnwf
    have hm' : matchLen child.val (c :: w') < child.val.length := hm
    have hw' : matchLen child.val (c :: w') < (c :: w').length := hw
    clear hm hw
    rw [insertGo_cons_mismatch v cs iw c w' child hlk hm' hw']
    set m := matchLen child.val (c :: w') with hmdef
    have hm1 : 1 ≤ m := matchLen_pos_of_head child.val (c :: w') c hhead (by simp)
    have hg0 : child.val.getD 0 (Char.ofNat 0) = c := getD_zero_of_head _ _ _ hhead
    have hne : ¬ ((c :: w').getD m (Char.ofNat 0) = child.val.getD m (Char.ofNat 0)) :=
      fun hcc => matchLen_mismatch child.val (c :: w') hm' hw' hcc.symm
    have hne2 : ¬ (child.val.getD m (Char.ofNat 0) = (c :: w').getD m (Char.ofNat 0)) :=
      fun hcc => hne hcc.symm
    have hcommon_children :
        childUpdate (childUpdate [] ((c :: w').getD m (Char.ofNat 0))
            (.mk ((c :: w').drop m) [] true))
          (child.val.getD m (Char.ofNat 0))
          (.mk (child.val.drop m) child.children child.is_word) =
        [(((c :: w').getD m (Char.ofNat 0)), .mk ((c :: w').drop m) [] true),
         ((child.val.getD m (Char.ofNat 0)),
           .mk (child.val.drop m) child.children child.is_word)] := by
      show childUpdate [((c :: w').getD m (Char.ofNat 0), Radix_Node.mk ((c :: w').drop m) [] true)] _ _ = _
      rw [childUpdate, if_neg hne]
      rfl
    rw [hcommon_children, hg0]
    have hleaf_wf : nodeWF (.mk ((c :: w').drop m) [] true) = true :=
      nodeWF_of_parts _ (drop_ne_nil_of_lt _ m hw') (Or.inl rfl) rfl childrenWF_nil
    have hrel_wf : nodeWF (.mk (child.val.drop m) child.children child.is_word) = true :=
      nodeWF_of_parts _ (drop_ne_nil_of_lt _ m hm') hcomp hkd hcwf
    have hcommon_wf : nodeWF (.mk (child.val.take m)
        [(((c :: w').getD m (Char.ofNat 0)), .mk ((c :: w').drop m) [] true),
         ((child.val.getD m (Char.ofNat 0)),
           .mk (child.val.drop m) child.children child.is_word)] false) = true := by
      refine nodeWF_of_parts _ (take_ne_nil_of_lt _ m hm1 hm') (Or.inr (by simp)) ?_ ?_
      · exact keysDistinct_two _ _ _ _ hne
      · exact childrenWF_two _ _ _ _ (head?_of_drop_lt _ m hw') hleaf_wf
          (head?_of_drop_lt _ m hm') hrel_wf
    have hsome : (childLookup cs c).isSome := by rw [hlk]; rfl
    refine ⟨rfl, fun h => h, ?_, ?_, ?_⟩
    · show cs.length ≤ (childUpdate cs c _).length
      rw [childUpdate_length cs c _ hsome]
    · exact keysDistinct_childUpdate_some cs c _ hsome hd
    · refine childrenWF_childUpdate cs c _ hc ?_ hcommon_wf
      show (child.val.take m).head? = some c
      rw [head?_take_of_pos _ m hm1]
      exact hhead
  | case4 v cs iw c w' child hlk wlet mlet hm hw =>
    intro hd hc
    obtain ⟨hhead, hnwf⟩ := childrenWF_lookup cs c child hc hlk
    obtain ⟨hvne, hcomp, hkd, hcwf⟩ := nodeWF_parts child hnwf
    have hm' : matchLen child.val (c :: w') < child.val.length := hm
    have hw' : ¬ matchLen child.val (c :: w') < (c :: w').length := hw
    clear hm hw
    rw [insertGo_cons_inside v cs iw c w' child hlk hm' hw']
    set m := matchLen child.val (c :: w') with hmdef
    have hm1 : 1 ≤ m := matchLen_pos_of_head child.val (c :: w') c hhead (by simp)
    have hg0 : child.val.getD 0 (Char.ofNat 0) = c := getD_zero_of_head _ _ _ hhead
    have hcommon_children :
        childUpdate [] (child.val.getD m (Char.ofNat 0))
          (.mk (child.val.drop m) child.children child.is_word) =
        [((child.val.getD m (Char.ofNat 0)),
           .mk (child.val.drop m) child.children child.is_word)] := rfl
    rw [hcommon_children, hg0]
    have hrel_wf : nodeWF (.mk (child.val.drop m) child.children child.is_word) = true :=
      nodeWF_of_parts _ (drop_ne_nil_of_lt _ m hm') hcomp hkd hcwf
    have hcommon_wf : nodeWF (.mk (child.val.take m)
        [((child.val.getD m (Char.ofNat 0)),
           .mk (child.val.drop m) child.children child.is_word)] true) = true := by
      refine nodeWF_of_parts _ (take_ne_nil_of_lt _ m hm1 hm') (Or.inl rfl) ?_ ?_
      · exact keysDistinct_single _ _
      · exact childrenWF_single _ _ (head?_of_drop_lt _ m hm') hrel_wf
    have hsome : (childLookup cs c).isSome := by rw [hlk]; rfl
    refine ⟨rfl, fun h => h, ?_, ?_, ?_⟩
    · show cs.length ≤ (childUpdate cs c _).length
      rw [childUpdate_length cs c _ hsome]
    · exact keysDistinct_childUpdate_some cs c _ hsome hd
    · refine childrenWF_childUpdate cs c _ hc ?_ hcommon_wf
      show (child.val.take m).head? = some c
      rw [head?_take_of_pos _ m hm1]
      exact hhead
  | case5 v cs iw c w' child hlk wlet mlet hm ih =>
    intro hd hc
    obtain ⟨hhead, hnwf⟩ := childrenWF_lookup cs c child hc hlk
    obtain ⟨hvne, hcomp, hkd, hcwf⟩ := nodeWF_parts child hnwf
    have hm' : ¬ matchLen child.val (c :: w') < child.val.length := hm
    clear hm
    rw [insertGo_cons_descend v cs iw c w' child hlk hm']
    obtain ⟨ihval, ihword, ihlen, ihkd, ihcwf⟩ := ih hkd hcwf
    have hres_wf : nodeWF (insertGo child ((c :: w').drop (matchLen child.val (c :: w')))) = true := by
      refine nodeWF_of_parts _ (by rw [ihval]; exact hvne) ?_ ihkd ihcwf
      rcases hcomp with h | h
      · exact Or.inl (ihword h)
      · exact Or.inr (Nat.le_trans h ihlen)
    have hsome : (childLookup cs c).isSome := by rw [hlk]; rfl
    refine ⟨rfl, fun h => h, ?_, ?_, ?_⟩
    · show cs.length ≤ (childUpdate cs c _).length
      rw [childUpdate_length cs c _ hsome]
    · exact keysDistinct_childUpdate_some cs c _ hsome hd
    · refine childrenWF_childUpdate cs c _ hc ?_ hres_wf
      rw [ihval]
      exact hhead

end InsertPreservation

section RemovePreservation
theorem removeAux_child_none (n : Radix_Node) (w : List Char) (i : Nat) (c : Char)
    (child : Radix_Node) (hi : ¬ i = w.length) (hg : w.get? i = some c)
    (h : childLookup n.children c = some child)
    (hrem : removeAux child w (i + child.val.length) = none) :
    removeAux n w i = none := by
  rw [removeAux_child n w i c child hi hg h, hrem]

theorem removeAux_child_false (n : Radix_Node) (w : List Char) (i : Nat) (c : Char)
    (child child' : Radix_Node) (hi : ¬ i = w.length) (hg : w.get? i = some c)
    (h : childLookup n.children c = some child)
    (hrem : removeAux child w (i + child.val.length) = some (child', false)) :
    removeAux n w i =
      some (.mk n.val (childUpdate n.children c child') n.is_word, false) := by
  rw [removeAux_child n w i c child hi hg h, hrem]

theorem removeAux_child_prune (n : Radix_Node) (w : List Char) (i : Nat) (c : Char)
    (child child' : Radix_Node) (hi : ¬ i = w.length) (hg : w.get? i = some c)
    (h : childLookup n.children c = some child)
    (hrem : removeAux child w (i + child.val.length) = some (child', true))
    (h1 : child'.is_word = false) (h2 : child'.children = []) :
    removeAux n w i =
      some (.mk n.val (childErase n.children c) n.is_word, true) := by
  rw [removeAux_child n w i c child hi hg h, hrem]
  simp only [h1, h2]

theorem removeAux_child_merge (n : Radix_Node) (w : List Char) (i : Nat) (c : Char)
    (child child' gc : Radix_Node) (k : Char) (hi : ¬ i = w.length)
    (hg : w.get? i = some c) (h : childLookup n.children c = some child)
    (hrem : removeAux child w (i + child.val.length) = some (child', true))
    (h1 : child'.is_word = false) (h2 : child'.children = [(k, gc)]) :
    removeAux n w i =
      some (.mk n.val
        (childUpdate n.children c (.mk (child'.val ++ gc.val) gc.children gc.is_word))
        n.is_word, true) := by
  rw [removeAux_child n w i c child hi hg h, hrem]
  simp only [h1, h2]

theorem removeAux_child_keep_word (n : Radix_Node) (w : List Char) (i : Nat)
    (c : Char) (child child' : Radix_Node) (hi : ¬ i = w.length)
    (hg : w.get? i = some c) (h : childLookup n.children c = some child)
    (hrem : removeAux child w (i + child.val.length) = some (child', true))
    (h1 : child'.is_word = true) :
    removeAux n w i =
      some (.mk n.val (childUpdate n.children c child') n.is_word, true) := by
  rw [removeAux_child n w i c child hi hg h, hrem]
  simp only [h1]

theorem removeAux_child_keep_two (n : Radix_Node) (w : List Char) (i : Nat)
    (c : Char) (child child' : Radix_Node) (e1 e2 : Char × Radix_Node)
    (rest : List (Char × Radix_Node)) (hi : ¬ i = w.length)
    (hg : w.get? i = some c) (h : childLookup n.children c = some child)
    (hrem : removeAux child w (i + child.val.length) = some (child', true))
    (h1 : child'.is_word = false) (h2 : child'.children = e1 :: e2 :: rest) :
    removeAux n w i =
      some (.mk n.val (childUpdate n.children c child') n.is_word, true) := by
  rw [removeAux_child n w i c child hi hg h, hrem]
  simp only [h1, h2]

theorem head?_append_left (l l' : List Char) (h : l ≠ []) :
    (l ++ l').head? = l.head? := by
  cases l with
  | nil => exact absurd rfl h
  | cons a as => simp

theorem removeAux_wf :
    ∀ (n : Radix_Node) (w : List Char) (i : Nat),
      keysDistinct n.children = true → childrenWF n.children = true →
      ∀ n' b, removeAux n w i = some (n', b) →
        n'.val = n.val ∧ keysDistinct n'.children = true ∧
          childrenWF n'.children = true ∧ (b = false → n' = n) := by
  intro n w i
  induction n, w, i using removeAux.induct with
  | case1 n w hiw =>
    intro hd hc n' b hsome
    rw [removeAux_end n w w.length rfl, if_pos hiw] at hsome
    injection hsome with hsome2
    injection hsome2 with he hb
    subst he
    exact ⟨rfl, hd, hc, fun _ => rfl⟩
  | case2 n w hiw =>
    intro hd hc n' b hsome
    rw [removeAux_end n w w.length rfl, if_neg hiw] at hsome
    injection hsome with hsome2
    injection hsome2 with he hb
    subst he
    subst hb
    exact ⟨rfl, hd, hc, fun hf => by cases hf⟩
  | case3 n w i hi hg =>
    intro hd hc n' b hsome
    rw [removeAux_oob n w i hi hg] at hsome
    cases hsome
  | case4 n w i hi c hg hnone =>
    intro hd hc n' b hsome
    rw [removeAux_no_child n w i c hi hg hnone] at hsome
    injection hsome with hsome2
    injection hsome2 with he hb
    subst he
    exact ⟨rfl, hd, hc, fun _ => rfl⟩
  | case5 n w i hi c hg child hlk hrem ih =>
    intro hd hc n' b hsome
    rw [removeAux_child_none n w i c child hi hg hlk hrem] at hsome
    cases hsome
  | case6 n w i hi c hg child hlk child' hrem ih =>
    intro hd hc n' b hsome
    obtain ⟨hhead, hnwf⟩ := childrenWF_lookup n.children c child hc hlk
    obtain ⟨hvne, hcomp, hkd, hcwf⟩ := nodeWF_parts child hnwf
    obtain ⟨-, -, -, hid⟩ := ih hkd hcwf child' false hrem
    have hceq : child' = child := hid rfl
    subst hceq
    rw [removeAux_child_false n w i c child' child' hi hg hlk hrem] at hsome
    rw [childUpdate_self n.children c child' hlk] at hsome
    injection hsome with hsome2
    injection hsome2 with he hb
    subst he
    subst hb
    refine ⟨rfl, hd, hc, fun _ => ?_⟩
    exact Radix_Node.eta n
  | case7 n w i hi c hg child hlk child' hrem hch hiw ih =>
    intro hd hc n' b hsome
    rw [removeAux_child_prune n w i c child child' hi hg hlk hrem hiw hch] at hsome
    injection hsome with hsome2
    injection hsome2 with he hb
    subst he
    subst hb
    refine ⟨rfl, ?_, ?_, fun hf => by cases hf⟩
    · exact keysDistinct_childErase n.children c hd
    · exact childrenWF_childErase n.children c hc
  | case8 n w i hi c hg child hlk child' hrem k gc hch hiw ih =>
    intro hd hc n' b hsome
    obtain ⟨hhead, hnwf⟩ := childrenWF_lookup n.children c child hc hlk
    obtain ⟨hvne, hcomp, hkd, hcwf⟩ := nodeWF_parts child hnwf
    obtain ⟨hval', hkd', hcwf', -⟩ := ih hkd hcwf child' true hrem
    rw [removeAux_child_merge n w i c child child' gc k hi hg hlk hrem hiw hch] at hsome
    injection hsome with hsome2
    injection hsome2 with he hb
    subst he
    subst hb
    have hgc : gc.val.head? = some k ∧ nodeWF gc = true := by
      rw [childrenWF_forall] at hcwf'
      exact hcwf' (k, gc) (by rw [hch]; simp)
    obtain ⟨hgch, hgcwf⟩ := hgc
    obtain ⟨hgvne, hgcomp, hgkd, hgcwf2⟩ := nodeWF_parts gc hgcwf
    have hvne' : child'.val ≠ [] := by rw [hval']; exact hvne
    have hmerged : nodeWF (.mk (child'.val ++ gc.val) gc.children gc.is_word) = true := by
      refine nodeWF_of_parts _ ?_ hgcomp hgkd hgcwf2
      simp
      intro hh
      exact absurd hh hvne'
    have hsome2 : (childLookup n.children c).isSome := by rw [hlk]; rfl
    refine ⟨rfl, ?_, ?_, fun hf => by cases hf⟩
    · exact keysDistinct_childUpdate_some n.children c _ hsome2 hd
    · refine childrenWF_childUpdate n.children c _ hc ?_ hmerged
      show (child'.val ++ gc.val).head? = some c
      rw [head?_append_left _ _ hvne', hval']
      exact hhead
  | case9 n w i hi c hg child hlk child' hrem hg1 hg2 ih =>
    intro hd hc n' b hsome
    obtain ⟨hhead, hnwf⟩ := childrenWF_lookup n.children c child hc hlk
    obtain ⟨hvne, hcomp, hkd, hcwf⟩ := nodeWF_parts child hnwf
    obtain ⟨hval', hkd', hcwf', -⟩ := ih hkd hcwf child' true hrem
    have hchild'_wf : nodeWF child' = true ∧
        removeAux n w i =
          some (.mk n.val (childUpdate n.children c child') n.is_word, true) := by
      cases hiw : child'.is_word with
      | true =>
        refine ⟨nodeWF_of_parts _ (by rw [hval']; exact hvne) (Or.inl hiw) hkd' hcwf', ?_⟩
        exact removeAux_child_keep_word n w i c child child' hi hg hlk hrem hiw
      | false =>
        cases hch : child'.children with
        | nil => exact absurd hch (fun hh => hg1 hiw hh)
        | cons e1 tl =>
          cases htl : tl with
          | nil =>
            obtain ⟨k1, gc1⟩ := e1
            rw [htl] at hch
            exact absurd hch (fun hh => hg2 k1 gc1 hiw hh)
          | cons e2 rest =>
            rw [htl] at hch
            refine ⟨nodeWF_of_parts _ (by rw [hval']; exact hvne)
              (Or.inr (by rw [hch]; simp)) hkd' hcwf', ?_⟩
            exact removeAux_child_keep_two n w i c child child' e1 e2 rest hi hg hlk
              hrem hiw hch
    obtain ⟨hwfc, hred⟩ := hchild'_wf
    rw [hred] at hsome
    injection hsome with hsome3
    injection hsome3 with he hb
    subst he
    subst hb
    have hsome4 : (childLookup n.children c).isSome := by rw [hlk]; rfl
    refine ⟨rfl, ?_, ?_, fun hf => by cases hf⟩
    · exact keysDistinct_childUpdate_some n.children c _ hsome4 hd
    · refine childrenWF_childUpdate n.children c _ hc ?_ hwfc
      rw [hval']
      exact hhead

end RemovePreservation

section ReachabilityInvariant
theorem rootWF_emptyTrie : rootWF emptyTrie = true := by
  show keysDistinct [] && childrenWF [] = true
  rw [childrenWF_nil]
  rfl

theorem rootWF_parts (t : Radix_Node) (h : rootWF t = true) :
    keysDistinct t.children = true ∧ childrenWF t.children = true := by
  rw [rootWF, Bool.and_eq_true] at h
  exact h

theorem rootWF_insert (t : Radix_Node) (w : List Char) (h : rootWF t = true) :
    rootWF (insertGo t w) = true := by
  obtain ⟨hd, hc⟩ := rootWF_parts t h
  obtain ⟨-, -, -, hkd, hcwf⟩ := insertGo_wf t w hd hc
  rw [rootWF, Bool.and_eq_true]
  exact ⟨hkd, hcwf⟩

theorem rootWF_remove (t : Radix_Node) (w : List Char) (t' : Radix_Node) (b : Bool)
    (h : rootWF t = true) (hr : removeAux t w 0 = some (t', b)) :
    rootWF t' = true := by
  obtain ⟨hd, hc⟩ := rootWF_parts t h
  obtain ⟨-, hkd, hcwf, -⟩ := removeAux_wf t w 0 hd hc t' b hr
  rw [rootWF, Bool.and_eq_true]
  exact ⟨hkd, hcwf⟩

/-- Every tree reachable through the public interface satisfies the
well-formedness invariant. -/
theorem reachable_rootWF (t : Radix_Node) (h : Reachable t) : rootWF t = true := by
  induction h with
  | base => exact rootWF_emptyTrie
  | ins t w ht ih => exact rootWF_insert t w ih
  | rem t t' b w ht hrem ih => exact rootWF_remove t w t' b ih hrem

theorem subOk_mk (v : List Char) (cs : List (Char × Radix_Node)) (iw : Bool) :
    subOk (.mk v cs iw) = childrenOk cs := by
  rw [subOk]

theorem childrenOk_nil : childrenOk [] = true := by rw [childrenOk]

theorem childrenOk_cons (k : Char) (child : Radix_Node)
    (rest : List (Char × Radix_Node)) :
    childrenOk ((k, child) :: rest) =
      ((child.is_word || decide (child.children.length ≠ 1)) && subOk child &&
        childrenOk rest) := by
  rw [childrenOk]

theorem childrenOk_of_wf :
    ∀ (cs : List (Char × Radix_Node)),
      (∀ k child, (k, child) ∈ cs → childrenWF child.children = true →
        subOk child = true) →
      childrenWF cs = true → childrenOk cs = true
  | [], _, _ => childrenOk_nil
  | (k, m) :: rest, hrec, hc => by
    rw [childrenOk_cons]
    have hparts := (childrenWF_forall _).mp hc (k, m) (by simp)
    obtain ⟨-, hnwf⟩ := hparts
    obtain ⟨-, hcomp, -, hcwf⟩ := nodeWF_parts m hnwf
    have h1 : (m.is_word || decide (m.children.length ≠ 1)) = true := by
      rcases hcomp with h | h
      · rw [h]
        rfl
      · rw [Bool.or_eq_true]
        right
        rw [decide_eq_true_eq]
        omega
    have h2 : subOk m = true := hrec k m (by simp) hcwf
    have h3 : childrenOk rest = true :=
      childrenOk_of_wf rest
        (fun k' child hmem hcw => hrec k' child (List.mem_cons_of_mem _ hmem) hcw)
        ((childrenWF_forall rest).mpr
          (fun e he => (childrenWF_forall _).mp hc e (List.mem_cons_of_mem _ he)))
    rw [h1, h2, h3]
    rfl

theorem subOk_of_childrenWF (n : Radix_Node) :
    childrenWF n.children = true → subOk n = true := by
  induction n using Radix_Node.nestedRec with
  | step v cs iw ih =>
    intro hc
    rw [subOk_mk]
    exact childrenOk_of_wf cs (fun k child hm hcw => ih k child hm hcw) hc

end ReachabilityInvariant

section InsertMembership
/-- Effect of one insertion on the word list: exactly the inserted word is
added (as a set). -/
theorem mem_printList_insertGo :
    ∀ (n : Radix_Node) (w : List Char),
      keysDistinct n.children = true → childrenWF n.children = true →
      ∀ b x, x ∈ printList (insertGo n w) b ↔ x = b ++ w ∨ x ∈ printList n b := by
  intro n w
  induction n, w using insertGo.induct with
  | case1 v cs iw =>
    intro hd hc b x
    rw [insertGo_nil, printList_mk, printList_mk]
    cases iw <;> simp <;> tauto
  | case2 v cs iw c w' hnone =>
    intro hd hc b x
    rw [insertGo_cons_none v cs iw c w' hnone]
    rw [printList_mk, printList_mk]
    rw [childUpdate_of_lookup_none cs c _ hnone]
    rw [printListChildren_append]
    have hleaf : printList (.mk (c :: w') [] true) (b ++ (c :: w' )) = [b ++ (c :: w')] := by
      rw [printList_mk]
      simp
    simp only [printListChildren_cons, Radix_Node.val_mk, printListChildren_nil, hleaf]
    cases iw <;> simp <;> tauto
  | case3 v cs iw c w' child hlk wlet mlet hm hw =>
    intro hd hc b x
    obtain ⟨hhead, hnwf⟩ := childrenWF_lookup cs c child hc hlk
    have hm' : matchLen child.val (c :: w') < child.val.length := hm
    have hw' : matchLen child.val (c :: w') < (c :: w').length := hw
    clear hm hw
    rw [insertGo_cons_mismatch v cs iw c w' child hlk hm' hw']
    set m := matchLen child.val (c :: w') with hmdef
    have hm1 : 1 ≤ m := matchLen_pos_of_head child.val (c :: w') c hhead (by simp)
    have hg0 : child.val.getD 0 (Char.ofNat 0) = c := getD_zero_of_head _ _ _ hhead
    have hne : ¬ ((c :: w').getD m (Char.ofNat 0) = child.val.getD m (Char.ofNat 0)) :=
      fun hcc => matchLen_mismatch child.val (c :: w') hm' hw' hcc.symm
    have hcommon_children :
        childUpdate (childUpdate [] ((c :: w').getD m (Char.ofNat 0))
            (.mk ((c :: w').drop m) [] true))
          (child.val.getD m (Char.ofNat 0))
          (.mk (child.val.drop m) child.children child.is_word) =
        [(((c :: w').getD m (Char.ofNat 0)), .mk ((c :: w').drop m) [] true),
         ((child.val.getD m (Char.ofNat 0)),
           .mk (child.val.drop m) child.children child.is_word)] := by
      show childUpdate [((c :: w').getD m (Char.ofNat 0),
        Radix_Node.mk ((c :: w').drop m) [] true)] _ _ = _
      rw [childUpdate, if_neg hne]
      rfl
    rw [hcommon_children, hg0]
    have htake : child.val.take m = (c :: w').take m := matchLen_take child.val (c :: w')
    have hmid : ∀ y, y ∈ printList
        (.mk (child.val.take m)
          [(((c :: w').getD m (Char.ofNat 0)), .mk ((c :: w').drop m) [] true),
           ((child.val.getD m (Char.ofNat 0)),
             .mk (child.val.drop m) child.children child.is_word)] false)
          (b ++ (child.val.take m)) ↔
        y = b ++ (c :: w') ∨ y ∈ printList child (b ++ child.val) := by
      intro y
      rw [printList_mk]
      simp only [if_neg (by simp : ¬ (false = true))]
      rw [printListChildren_cons, printListChildren_cons, printListChildren_nil]
      have hb1 : (b ++ child.val.take m) ++ (Radix_Node.mk ((c :: w').drop m) [] true).val
          = b ++ (c :: w') := by
        simp only [Radix_Node.val_mk]
        rw [htake, List.append_assoc, List.take_append_drop]
      have hb2 : (b ++ child.val.take m) ++
          (Radix_Node.mk (child.val.drop m) child.children child.is_word).val
          = b ++ child.val := by
        simp only [Radix_Node.val_mk]
        rw [List.append_assoc, List.take_append_drop]
      rw [hb1, hb2]
      have hleaf : printList (.mk ((c :: w').drop m) [] true) (b ++ (c :: w'))
          = [b ++ (c :: w')] := by
        rw [printList_mk]
        simp
      have hrel : printList (.mk (child.val.drop m) child.children child.is_word)
          (b ++ child.val) = printList child (b ++ child.val) := by
        rw [printList_val_irrel _ child.val]
        rw [Radix_Node.eta]
      rw [hleaf, hrel]
      simp
    rw [printList_mk, printList_mk]
    have hupd := printListChildren_childUpdate_iff cs b c child _ (b ++ (c :: w'))
      hlk hmid
    simp only [List.mem_append]
    rw [hupd x]
    cases iw <;> simp <;> tauto
  | case4 v cs iw c w' child hlk wlet mlet hm hw =>
    intro hd hc b x
    obtain ⟨hhead, hnwf⟩ := childrenWF_lookup cs c child hc hlk
    have hm' : matchLen child.val (c :: w') < child.val.length := hm
    have hw' : ¬ matchLen child.val (c :: w') < (c :: w').length := hw
    clear hm hw
    rw [insertGo_cons_inside v cs iw c w' child hlk hm' hw']
    set m := matchLen child.val (c :: w') with hmdef
    have hm1 : 1 ≤ m := matchLen_pos_of_head child.val (c :: w') c hhead (by simp)
    have hg0 : child.val.getD 0 (Char.ofNat 0) = c := getD_zero_of_head _ _ _ hhead
    have hmw : m = (c :: w').length := by
      have := matchLen_le_right child.val (c :: w')
      omega
    have htake : child.val.take m = (c :: w') := by
      have ht := matchLen_take child.val (c :: w')
      rw [← hmdef] at ht
      rw [ht, hmw, List.take_length]
    rw [hg0]
    have hmid : ∀ y, y ∈ printList
        (.mk (child.val.take m)
          (childUpdate [] (child.val.getD m (Char.ofNat 0))
            (.mk (child.val.drop m) child.children child.is_word)) true)
          (b ++ (child.val.take m)) ↔
        y = b ++ (c :: w') ∨ y ∈ printList child (b ++ child.val) := by
      intro y
      rw [printList_mk]
      show y ∈ (if true = true then [b ++ child.val.take m] else []) ++
        printListChildren [((child.val.getD m (Char.ofNat 0)),
          .mk (child.val.drop m) child.children child.is_word)] (b ++ child.val.take m) ↔ _
      rw [if_pos rfl]
      rw [printListChildren_cons, printListChildren_nil]
      have hb2 : (b ++ child.val.take m) ++
          (Radix_Node.mk (child.val.drop m) child.children child.is_word).val
          = b ++ child.val := by
        simp only [Radix_Node.val_mk]
        rw [List.append_assoc, List.take_append_drop]
      rw [hb2]
      have hrel : printList (.mk (child.val.drop m) child.children child.is_word)
          (b ++ child.val) = printList child (b ++ child.val) := by
        rw [printList_val_irrel _ child.val]
        rw [Radix_Node.eta]
      rw [hrel, htake]
      simp
    rw [printList_mk, printList_mk]
    have hupd := printListChildren_childUpdate_iff cs b c child _ (b ++ (c :: w'))
      hlk hmid
    simp only [List.mem_append]
    rw [hupd x]
    cases iw <;> simp <;> tauto
  | case5 v cs iw c w' child hlk wlet mlet hm ih =>
    intro hd hc b x
    obtain ⟨hhead, hnwf⟩ := childrenWF_lookup cs c child hc hlk
    obtain ⟨hvne, hcomp, hkd, hcwf⟩ := nodeWF_parts child hnwf
    have hm' : ¬ matchLen child.val (c :: w') < child.val.length := hm
    clear hm
    rw [insertGo_cons_descend v cs iw c w' child hlk hm']
    set m := matchLen child.val (c :: w') with hmdef
    have hmv : m = child.val.length := by
      have := matchLen_le_left child.val (c :: w')
      omega
    have hval : child.val = (c :: w').take m := by
      have ht := matchLen_take child.val (c :: w')
      rw [← hmdef] at ht
      have ht2 : child.val.take m = child.val := by
        rw [hmv, List.take_length]
      rw [ht2] at ht
      exact ht
    obtain ⟨ihval, -, -, -, -⟩ := insertGo_wf child ((c :: w').drop m) hkd hcwf
    have hmid : ∀ y, y ∈ printList (insertGo child ((c :: w').drop m))
          (b ++ (insertGo child ((c :: w').drop m)).val) ↔
        y = b ++ (c :: w') ∨ y ∈ printList child (b ++ child.val) := by
      intro y
      rw [ihval]
      rw [ih hkd hcwf (b ++ child.val) y]
      have : b ++ child.val ++ (c :: w').drop m = b ++ (c :: w') := by
        rw [List.append_assoc]
        rw [hval, List.take_append_drop]
      rw [this]
    rw [printList_mk, printList_mk]
    have hupd := printListChildren_childUpdate_iff cs b c child _ (b ++ (c :: w'))
      hlk hmid
    simp only [List.mem_append]
    rw [hupd x]
    cases iw <;> simp <;> tauto

end InsertMembership

section InsertIdempotence
theorem prefix_single_head (k c : Char) (w' : List Char) (h : [k] <+: c :: w') :
    k = c := by
  obtain ⟨t, ht⟩ := h
  simp at ht
  exact ht.1

theorem mem_printListChildren_start (cs : List (Char × Radix_Node)) (c : Char)
    (w' x : List Char) (hwf : childrenWF cs = true) (hd : keysDistinct cs = true)
    (hx : x ∈ printListChildren cs []) (hpre : [c] <+: x) :
    ∃ child, childLookup cs c = some child ∧ x ∈ printList child child.val := by
  obtain ⟨k, child, hlk, hmem, hkpre⟩ :=
    printListChildren_mem_entry cs [] x hwf hd hx
  simp only [List.nil_append] at hmem hkpre
  have hk : k = c := by
    obtain ⟨t1, ht1⟩ := hkpre
    obtain ⟨t2, ht2⟩ := hpre
    rw [← ht2] at ht1
    simp at ht1
    exact ht1.1
  subst hk
  exact ⟨child, hlk, hmem⟩

theorem nil_not_mem_printListChildren (cs : List (Char × Radix_Node))
    (hwf : childrenWF cs = true) (hd : keysDistinct cs = true) :
    [] ∉ printListChildren cs ([] : List Char) := by
  intro hx
  obtain ⟨k, child, hlk, hmem, hkpre⟩ :=
    printListChildren_mem_entry cs [] [] hwf hd hx
  simp at hkpre

/-- Inserting a word that the tree already lists leaves the tree unchanged. -/
theorem insertGo_mem_self :
    ∀ (n : Radix_Node) (w : List Char),
      keysDistinct n.children = true → childrenWF n.children = true →
      w ∈ printList n [] → insertGo n w = n := by
  intro n w
  induction n, w using insertGo.induct with
  | case1 v cs iw =>
    intro hd hc hmem
    rw [insertGo_nil]
    rw [printList_mk] at hmem
    rcases List.mem_append.mp hmem with h | h
    · cases iw with
      | true => rfl
      | false => simp at h
    · exact absurd h (nil_not_mem_printListChildren cs hc hd)
  | case2 v cs iw c w' hnone =>
    intro hd hc hmem
    rw [printList_mk] at hmem
    rcases List.mem_append.mp hmem with h | h
    · cases iw <;> simp at h
    · obtain ⟨child, hlk, -⟩ :=
        mem_printListChildren_start cs c w' (c :: w') hc hd h (by simp)
      rw [hlk] at hnone
      cases hnone
  | case3 v cs iw c w' child hlk wlet mlet hm hw =>
    intro hd hc hmem
    have hm' : matchLen child.val (c :: w') < child.val.length := hm
    rw [printList_mk] at hmem
    rcases List.mem_append.mp hmem with h | h
    · cases iw <;> simp at h
    · obtain ⟨child2, hlk2, hmem2⟩ :=
        mem_printListChildren_start cs c w' (c :: w') hc hd h (by simp)
      rw [hlk] at hlk2
      injection hlk2 with hce
      subst hce
      have hpre := printList_mem_pre child child.val (c :: w') hmem2
      have := matchLen_of_left_prefix child.val (c :: w') hpre
      omega
  | case4 v cs iw c w' child hlk wlet mlet hm hw =>
    intro hd hc hmem
    have hm' : matchLen child.val (c :: w') < child.val.length := hm
    rw [printList_mk] at hmem
    rcases List.mem_append.mp hmem with h | h
    · cases iw <;> simp at h
    · obtain ⟨child2, hlk2, hmem2⟩ :=
        mem_printListChildren_start cs c w' (c :: w') hc hd h (by simp)
      rw [hlk] at hlk2
      injection hlk2 with hce
      subst hce
      have hpre := printList_mem_pre child child.val (c :: w') hmem2
      have := matchLen_of_left_prefix child.val (c :: w') hpre
      omega
  | case5 v cs iw c w' child hlk wlet mlet hm ih =>
    intro hd hc hmem
    obtain ⟨hhead, hnwf⟩ := childrenWF_lookup cs c child hc hlk
    obtain ⟨hvne, hcomp, hkd, hcwf⟩ := nodeWF_parts child hnwf
    have hm' : ¬ matchLen child.val (c :: w') < child.val.length := hm
    clear hm
    rw [insertGo_cons_descend v cs iw c w' child hlk hm']
    have hmv : matchLen child.val (c :: w') = child.val.length := by
      have := matchLen_le_left child.val (c :: w')
      omega
    rw [printList_mk] at hmem
    rcases List.mem_append.mp hmem with h | h
    · cases iw <;> simp at h
    · obtain ⟨child2, hlk2, hmem2⟩ :=
        mem_printListChildren_start cs c w' (c :: w') hc hd h (by simp)
      rw [hlk] at hlk2
      injection hlk2 with hce
      subst hce
      rw [printList_base_nil child child.val] at hmem2
      obtain ⟨y, hy, hyeq⟩ := List.mem_map.mp hmem2
      have hdropy : (c :: w').drop (matchLen child.val (c :: w')) = y := by
        rw [hmv, ← hyeq, List.drop_left]
      have hy2 : (c :: w').drop (matchLen child.val (c :: w')) ∈ printList child [] := by
        rw [hdropy]
        exact hy
      have hins : insertGo child ((c :: w').drop (matchLen child.val (c :: w'))) = child :=
        ih hkd hcwf hy2
      rw [hins, childUpdate_self cs c child hlk]

theorem mem_listWords_foldl :
    ∀ (W : List (List Char)) (t : Radix_Node), rootWF t = true →
      ∀ x, x ∈ printList (W.foldl insertGo t) [] ↔ x ∈ W ∨ x ∈ printList t []
  | [], t, h, x => by simp
  | w :: W, t, h, x => by
    simp only [List.foldl_cons]
    rw [mem_listWords_foldl W (insertGo t w) (rootWF_insert t w h) x]
    obtain ⟨hd, hc⟩ := rootWF_parts t h
    rw [mem_printList_insertGo t w hd hc [] x]
    simp only [List.nil_append, List.mem_cons]
    tauto

theorem printList_emptyTrie : printList emptyTrie [] = [] := by
  show printList (.mk [] [] false) [] = []
  rw [printList_mk, printListChildren_nil]
  simp

end InsertIdempotence

section FindLemmas
theorem mem_printList_node_iff_child (v : List Char) (cs : List (Char × Radix_Node))
    (iw : Bool) (c : Char) (v' : List Char) (child : Radix_Node)
    (hd : keysDistinct cs = true) (hc : childrenWF cs = true)
    (hlk : childLookup cs c = some child) :
    (c :: v') ∈ printList (.mk v cs iw) [] ↔ (c :: v') ∈ printList child child.val := by
  rw [printList_mk]
  simp only [List.mem_append]
  constructor
  · rintro (h | h)
    · cases iw <;> simp at h
    · obtain ⟨child2, hlk2, hmem2⟩ :=
        mem_printListChildren_start cs c v' (c :: v') hc hd h (by simp)
      rw [hlk] at hlk2
      injection hlk2 with he
      subst he
      exact hmem2
  · intro h
    right
    exact printListChildren_mem_of_lookup cs [] c child (c :: v') hlk (by simpa using h)

theorem mem_printList_shift (child : Radix_Node) (x : List Char) :
    x ∈ printList child child.val ↔
      ∃ y, y ∈ printList child [] ∧ x = child.val ++ y := by
  rw [printList_base_nil child child.val]
  rw [List.mem_map]
  constructor
  · rintro ⟨y, hy, hyeq⟩
    exact ⟨y, hy, hyeq.symm⟩
  · rintro ⟨y, hy, hyeq⟩
    exact ⟨y, hy, hyeq.symm⟩

theorem nil_mem_printList_iff (v : List Char) (cs : List (Char × Radix_Node))
    (iw : Bool) (hd : keysDistinct cs = true) (hc : childrenWF cs = true) :
    ([] : List Char) ∈ printList (.mk v cs iw) [] ↔ iw = true := by
  rw [printList_mk]
  simp only [List.mem_append]
  constructor
  · rintro (h | h)
    · cases iw with
      | true => rfl
      | false => simp at h
    · exact absurd h (nil_not_mem_printListChildren cs hc hd)
  · intro h
    subst h
    simp

/-- Characterisation of exact (non-partial) lookup: it lands on a word node
exactly for the words the tree lists. -/
theorem findGo_exact_word_iff (n : Radix_Node) :
    ∀ w, keysDistinct n.children = true → childrenWF n.children = true →
      ((∃ nd, findGo n w false = some nd ∧ nd.is_word = true) ↔
        w ∈ printList n []) := by
  induction n using Radix_Node.nestedRec with
  | step v cs iw ih =>
    intro w hd hc
    cases w with
    | nil =>
      rw [findGo_nil]
      rw [nil_mem_printList_iff v cs iw hd hc]
      constructor
      · rintro ⟨nd, hnd, hw⟩
        injection hnd with hnd
        subst hnd
        exact hw
      · intro hiw
        exact ⟨_, rfl, hiw⟩
    | cons c v' =>
      cases hlk : childLookup cs c with
      | none =>
        rw [findGo_cons_none v cs iw c v' false hlk]
        constructor
        · rintro ⟨nd, hnd, -⟩
          cases hnd
        · intro hmem
          rw [printList_mk] at hmem
          rcases List.mem_append.mp hmem with h | h
          · cases iw <;> simp at h
          · obtain ⟨child, hlk2, -⟩ :=
              mem_printListChildren_start cs c v' (c :: v') hc hd h (by simp)
            rw [hlk2] at hlk
            cases hlk
      | some child =>
        obtain ⟨hhead, hnwf⟩ := childrenWF_lookup cs c child hc hlk
        obtain ⟨hvne, hcomp, hkd, hcwf⟩ := nodeWF_parts child hnwf
        rw [findGo_cons_some v cs iw c v' false child hlk]
        rw [mem_printList_node_iff_child v cs iw c v' child hd hc hlk]
        by_cases hm : matchLen child.val (c :: v') < child.val.length
        · rw [if_pos hm]
          rw [if_neg (by simp : ¬ (matchLen child.val (c :: v') = (c :: v').length ∧ false = true))]
          constructor
          · rintro ⟨nd, hnd, -⟩
            cases hnd
          · intro hmem
            have hpre := printList_mem_pre child child.val (c :: v') hmem
            have := matchLen_of_left_prefix child.val (c :: v') hpre
            omega
        · rw [if_neg hm]
          have hmv : matchLen child.val (c :: v') = child.val.length := by
            have := matchLen_le_left child.val (c :: v')
            omega
          have hvtake : child.val = (c :: v').take (matchLen child.val (c :: v')) := by
            have ht := matchLen_take child.val (c :: v')
            have ht2 : child.val.take (matchLen child.val (c :: v')) = child.val := by
              rw [hmv, List.take_length]
            rw [ht2] at ht
            exact ht
          rw [ih c child (childLookup_mem cs c child hlk)
            ((c :: v').drop (matchLen child.val (c :: v'))) hkd hcwf]
          rw [mem_printList_shift child (c :: v')]
          constructor
          · intro hdrop
            refine ⟨(c :: v').drop (matchLen child.val (c :: v')), hdrop, ?_⟩
            have h0 := (List.take_append_drop (matchLen child.val (c :: v')) (c :: v')).symm
            rw [← hvtake] at h0
            exact h0
          · rintro ⟨y, hy, hyeq⟩
            have hdy : (c :: v').drop (matchLen child.val (c :: v')) = y := by
              rw [hmv, hyeq, List.drop_left]
            rw [hdy]
            exact hy

/-- Exact lookup success carries over to partial lookup. -/
theorem find_partial_of_exact (n : Radix_Node) :
    ∀ w nd, findGo n w false = some nd → findGo n w true = some nd := by
  induction n using Radix_Node.nestedRec with
  | step v cs iw ih =>
    intro w nd h
    cases w with
    | nil =>
      rw [findGo_nil] at h ⊢
      exact h
    | cons c v' =>
      cases hlk : childLookup cs c with
      | none =>
        rw [findGo_cons_none v cs iw c v' false hlk] at h
        cases h
      | some child =>
        rw [findGo_cons_some v cs iw c v' false child hlk] at h
        rw [findGo_cons_some v cs iw c v' true child hlk]
        by_cases hm : matchLen child.val (c :: v') < child.val.length
        · rw [if_pos hm] at h
          rw [if_neg (by simp : ¬ (matchLen child.val (c :: v') = (c :: v').length ∧ false = true))] at h
          cases h
        · rw [if_neg hm] at h ⊢
          exact ih c child (childLookup_mem cs c child hlk) _ nd h

theorem prefix_append_of_prefix (l a b : List Char) (h : a <+: b) :
    l ++ a <+: l ++ b := by
  obtain ⟨t, ht⟩ := h
  exact ⟨t, by rw [List.append_assoc, ht]⟩

/-- Any successful lookup (either mode) of a non-empty query means the query
is a prefix of some listed word. -/
theorem findGo_some_prefix (n : Radix_Node) :
    ∀ w ap nd, keysDistinct n.children = true → childrenWF n.children = true →
      findGo n w ap = some nd →
      (w = [] ∨ ∃ x, x ∈ printList n [] ∧ w <+: x) := by
  induction n using Radix_Node.nestedRec with
  | step v cs iw ih =>
    intro w ap nd hd hc h
    cases w with
    | nil => exact Or.inl rfl
    | cons c v' =>
      right
      cases hlk : childLookup cs c with
      | none =>
        rw [findGo_cons_none v cs iw c v' ap hlk] at h
        cases h
      | some child =>
        obtain ⟨hhead, hnwf⟩ := childrenWF_lookup cs c child hc hlk
        obtain ⟨hvne, hcomp, hkd, hcwf⟩ := nodeWF_parts child hnwf
        rw [findGo_cons_some v cs iw c v' ap child hlk] at h
        have hmemlift : ∀ x, x ∈ printList child child.val →
            x ∈ printList (Radix_Node.mk v cs iw) [] := by
          intro x hx
          rw [printList_mk]
          refine List.mem_append.mpr (Or.inr ?_)
          exact printListChildren_mem_of_lookup cs [] c child x hlk (by simpa using hx)
        have hfull : (c :: v').length = matchLen child.val (c :: v') →
            ∃ x, x ∈ printList (Radix_Node.mk v cs iw) [] ∧ (c :: v') <+: x := by
          intro hmw
          have ht := matchLen_take child.val (c :: v')
          rw [← hmw, List.take_length] at ht
          have hwpre : (c :: v') <+: child.val := by
            rw [← ht]
            exact List.take_prefix _ _
          obtain ⟨x, hx, hxpre⟩ := nodeWF_exists_word child child.val hnwf
          exact ⟨x, hmemlift x hx, hwpre.trans hxpre⟩
        by_cases hm : matchLen child.val (c :: v') < child.val.length
        · rw [if_pos hm] at h
          by_cases hcnd : matchLen child.val (c :: v') = (c :: v').length ∧ ap = true
          · exact hfull hcnd.1.symm
          · rw [if_neg hcnd] at h
            cases h
        · rw [if_neg hm] at h
          have hmv : matchLen child.val (c :: v') = child.val.length := by
            have := matchLen_le_left child.val (c :: v')
            omega
          have hvtake : child.val = (c :: v').take (matchLen child.val (c :: v')) := by
            have ht := matchLen_take child.val (c :: v')
            have ht2 : child.val.take (matchLen child.val (c :: v')) = child.val := by
              rw [hmv, List.take_length]
            rw [ht2] at ht
            exact ht
          rcases ih c child (childLookup_mem cs c child hlk) _ ap nd hkd hcwf h with
            hnil | ⟨x, hx, hxpre⟩
          · refine hfull ?_
            have hlen : (c :: v').length ≤ matchLen child.val (c :: v') := by
              have hlen0 := congrArg List.length hnil
              rw [List.length_drop] at hlen0
              simp only [List.length_nil] at hlen0
              omega
            have hlen2 := matchLen_le_right child.val (c :: v')
            omega
          · refine ⟨child.val ++ x, ?_, ?_⟩
            · refine hmemlift (child.val ++ x) ?_
              rw [mem_printList_shift child (child.val ++ x)]
              exact ⟨x, hx, rfl⟩
            · have hsplit : c :: v' =
                  child.val ++ (c :: v').drop (matchLen child.val (c :: v')) := by
                have h0 := (List.take_append_drop (matchLen child.val (c :: v')) (c :: v')).symm
                rw [← hvtake] at h0
                exact h0
              rw [hsplit]
              exact prefix_append_of_prefix child.val _ _ hxpre

end FindLemmas

section CompleteLemmas
theorem getD_of_pre (a b : List Char) (h : a <+: b) (i : Nat) (hi : i < a.length)
    (d : Char) : b.getD i d = a.getD i d := by
  have hib : i < b.length := Nat.lt_of_lt_of_le hi h.length_le
  rw [List.getD_eq_getElem?_getD, List.getD_eq_getElem?_getD]
  rw [List.getElem?_eq_getElem hi, List.getElem?_eq_getElem hib]
  simp only [Option.getD_some]
  exact (h.getElem hi).symm

/-- Characterisation of the completion walk: the collected strings are
exactly the non-empty suffixes that extend the prefix to a listed word. -/
theorem mem_completeGo (n : Radix_Node) :
    ∀ p s, keysDistinct n.children = true → childrenWF n.children = true →
      (s ∈ completeGo n p ↔ s ≠ [] ∧ (p ++ s) ∈ printList n []) := by
  induction n using Radix_Node.nestedRec with
  | step v cs iw ih =>
    intro p s hd hc
    cases p with
    | nil =>
      rw [completeGo_nil]
      rw [completeCollect_mem_iff]
      simp only [List.nil_append]
      tauto
    | cons c p' =>
      have hps : (c :: p') ++ s = c :: (p' ++ s) := by simp
      cases hlk : childLookup cs c with
      | none =>
        rw [completeGo_cons_none v cs iw c p' hlk]
        simp only [List.not_mem_nil, false_iff]
        rintro ⟨hs, hmem⟩
        rw [hps] at hmem
        rw [printList_mk] at hmem
        rcases List.mem_append.mp hmem with h | h
        · cases iw <;> simp at h
        · obtain ⟨child, hlk2, -⟩ :=
            mem_printListChildren_start cs c (p' ++ s) (c :: (p' ++ s)) hc hd h (by simp)
          rw [hlk2] at hlk
          cases hlk
      | some child =>
        obtain ⟨hhead, hnwf⟩ := childrenWF_lookup cs c child hc hlk
        obtain ⟨hvne, hcomp, hkd, hcwf⟩ := nodeWF_parts child hnwf
        rw [completeGo_cons_some v cs iw c p' child hlk]
        have hnodeiff : ((c :: p') ++ s ∈ printList (Radix_Node.mk v cs iw) [] ↔
            (c :: p') ++ s ∈ printList child child.val) := by
          rw [hps]
          exact mem_printList_node_iff_child v cs iw c (p' ++ s) child hd hc hlk
        by_cases hm : matchLen child.val (c :: p') < child.val.length
        · rw [if_pos hm]
          by_cases hp : matchLen child.val (c :: p') = (c :: p').length
          · rw [if_pos hp]
            rw [completeCollect_mem_iff]
            have htakep : child.val.take (matchLen child.val (c :: p')) = c :: p' := by
              have ht := matchLen_take child.val (c :: p')
              rw [hp, List.take_length] at ht
              rw [← hp] at ht
              exact ht
            constructor
            · rintro ⟨hmem, hs⟩
              refine ⟨hs, ?_⟩
              rw [hnodeiff]
              rw [mem_printList_shift child ((c :: p') ++ s)]
              rw [printList_base_nil child (child.val.drop (matchLen child.val (c :: p')))] at hmem
              obtain ⟨y, hy, hyeq⟩ := List.mem_map.mp hmem
              refine ⟨y, hy, ?_⟩
              have hgoal : child.val ++ y = (c :: p') ++ s := by
                conv_lhs =>
                  rw [← List.take_append_drop (matchLen child.val (c :: p')) child.val]
                rw [List.append_assoc, htakep, hyeq]
              exact hgoal.symm
            · rintro ⟨hs, hmem⟩
              refine ⟨?_, hs⟩
              rw [hnodeiff] at hmem
              rw [mem_printList_shift child ((c :: p') ++ s)] at hmem
              obtain ⟨y, hy, hyeq⟩ := hmem
              rw [printList_base_nil child (child.val.drop (matchLen child.val (c :: p')))]
              refine List.mem_map.mpr ⟨y, hy, ?_⟩
              have hsplit : child.val ++ y =
                  (c :: p') ++ (child.val.drop (matchLen child.val (c :: p')) ++ y) := by
                conv_lhs =>
                  rw [← List.take_append_drop (matchLen child.val (c :: p')) child.val]
                rw [List.append_assoc, htakep]
              rw [hsplit] at hyeq
              exact (List.append_cancel_left hyeq).symm
          · rw [if_neg hp]
            simp only [List.not_mem_nil, false_iff]
            rintro ⟨hs, hmem⟩
            rw [hnodeiff] at hmem
            have hpre := printList_mem_pre child child.val ((c :: p') ++ s) hmem
            have hplen : matchLen child.val (c :: p') < (c :: p').length := by
              have := matchLen_le_right child.val (c :: p')
              omega
            have hmm := matchLen_mismatch child.val (c :: p') hm hplen
            have h1 : ((c :: p') ++ s).getD (matchLen child.val (c :: p')) (Char.ofNat 0) =
                child.val.getD (matchLen child.val (c :: p')) (Char.ofNat 0) :=
              getD_of_pre child.val ((c :: p') ++ s) hpre _ hm (Char.ofNat 0)
            have h2 : ((c :: p') ++ s).getD (matchLen child.val (c :: p')) (Char.ofNat 0) =
                (c :: p').getD (matchLen child.val (c :: p')) (Char.ofNat 0) :=
              getD_of_pre (c :: p') ((c :: p') ++ s) (List.prefix_append _ _) _ hplen
                (Char.ofNat 0)
            rw [h2] at h1
            exact hmm h1.symm
        · rw [if_neg hm]
          have hmv : matchLen child.val (c :: p') = child.val.length := by
            have := matchLen_le_left child.val (c :: p')
            omega
          have hvtake : child.val = (c :: p').take (matchLen child.val (c :: p')) := by
            have ht := matchLen_take child.val (c :: p')
            have ht2 : child.val.take (matchLen child.val (c :: p')) = child.val := by
              rw [hmv, List.take_length]
            rw [ht2] at ht
            exact ht
          rw [ih c child (childLookup_mem cs c child hlk)
            ((c :: p').drop (matchLen child.val (c :: p'))) s hkd hcwf]
          have hsplit : (c :: p') =
              child.val ++ (c :: p').drop (matchLen child.val (c :: p')) := by
            have h0 := (List.take_append_drop (matchLen child.val (c :: p')) (c :: p')).symm
            rw [← hvtake] at h0
            exact h0
          constructor
          · rintro ⟨hs, hmem⟩
            refine ⟨hs, ?_⟩
            rw [hnodeiff]
            rw [mem_printList_shift child ((c :: p') ++ s)]
            refine ⟨(c :: p').drop (matchLen child.val (c :: p')) ++ s, hmem, ?_⟩
            rw [← List.append_assoc, ← hsplit]
          · rintro ⟨hs, hmem⟩
            refine ⟨hs, ?_⟩
            rw [hnodeiff] at hmem
            rw [mem_printList_shift child ((c :: p') ++ s)] at hmem
            obtain ⟨y, hy, hyeq⟩ := hmem
            have hyeq2 : (c :: p') ++ s =
                child.val ++ ((c :: p').drop (matchLen child.val (c :: p')) ++ s) := by
              rw [← List.append_assoc, ← hsplit]
            rw [hyeq2] at hyeq
            have := List.append_cancel_left hyeq
            rw [this]
            exact hy

end CompleteLemmas

section ClaimTheorems
theorem nil_not_mem_completeGo (n : Radix_Node) :
    ∀ p, ([] : List Char) ∉ completeGo n p := by
  induction n using Radix_Node.nestedRec with
  | step v cs iw ih =>
    intro p hmem
    cases p with
    | nil =>
      rw [completeGo_nil, completeCollect_mem_iff] at hmem
      exact hmem.2 rfl
    | cons c p' =>
      cases hlk : childLookup cs c with
      | none =>
        rw [completeGo_cons_none v cs iw c p' hlk] at hmem
        simp at hmem
      | some child =>
        rw [completeGo_cons_some v cs iw c p' child hlk] at hmem
        by_cases hm : matchLen child.val (c :: p') < child.val.length
        · rw [if_pos hm] at hmem
          by_cases hp : matchLen child.val (c :: p') = (c :: p').length
          · rw [if_pos hp, completeCollect_mem_iff] at hmem
            exact hmem.2 rfl
          · rw [if_neg hp] at hmem
            simp at hmem
        · rw [if_neg hm] at hmem
          exact ih c child (childLookup_mem cs c child hlk) _ hmem

/-- C1.  The claim: removing a word not present returns `false` and leaves
the tree unchanged, all edge labels being matched in full during descent.
The code contradicts it: `_remove` compares only the branching character of
each label, so on the tree holding exactly "car", `remove("cax")` returns
`true` and unmarks "car" — the word list goes from ["car"] to []. -/
theorem c1_remove_absent_word_mutates :
    Radix_Trie.listWords (Radix_Trie.buildTrie [['c','a','r']]) = [['c','a','r']] ∧
    (Radix_Trie.remove (Radix_Trie.buildTrie [['c','a','r']]) ['c','a','x']).map
      (fun p => (Radix_Trie.listWords p.1, p.2)) = some ([], true) := by
  constructor
  · simp [Radix_Trie.listWords, Radix_Trie.buildTrie, Radix_Trie.insert, emptyTrie,
      insertGo, printList, printListChildren, childLookup, childUpdate, matchLen]
  · simp [Radix_Trie.remove, Radix_Trie.buildTrie, Radix_Trie.insert, emptyTrie,
      insertGo, removeAux, childLookup, childUpdate, childErase, matchLen,
      List.get?, Radix_Trie.listWords, printList, printListChildren]

/-- C2.  The claim: every operation performs only in-bounds string indexing.
The code contradicts it in `_remove`: on the tree holding "car",
`remove("ca")` advances `word_idx` by the label length 3 past the end of the
two-character word and reads `word[3]`; the embedding's out-of-range branch
(the `none` result) is reached. -/
theorem c2_remove_reads_out_of_bounds :
    Radix_Trie.remove (Radix_Trie.buildTrie [['c','a','r']]) ['c','a'] = none := by
  simp [Radix_Trie.remove, Radix_Trie.buildTrie, Radix_Trie.insert, emptyTrie,
    insertGo, removeAux, childLookup, childUpdate, matchLen, List.get?]

/-- C3.  After every finite sequence of `insert` and (defined) `remove`
operations starting from the fresh trie, no non-root node is simultaneously
a non-word node and the parent of exactly one child. -/
theorem c3_reachable_compacted (t : Radix_Node) (h : Reachable t) :
    subOk t = true := by
  obtain ⟨-, hc⟩ := rootWF_parts t (reachable_rootWF t h)
  exact subOk_of_childrenWF t hc

/-- Witness for C3 at the tree obtained by inserting "ab". -/
theorem c3_reachable_compacted_witness :
    subOk (insertGo emptyTrie ['a','b']) = true :=
  c3_reachable_compacted _ (Reachable.ins emptyTrie ['a','b'] Reachable.base)

/-- C4.  For every finite list of words (any order, duplicates allowed),
inserting all of them into a fresh trie makes `list()` report exactly the
set of distinct words of the list (membership coincides). -/
theorem c4_buildTrie_lists_exactly (W : List (List Char)) (x : List Char) :
    x ∈ Radix_Trie.listWords (Radix_Trie.buildTrie W) ↔ x ∈ W := by
  have h := mem_listWords_foldl W emptyTrie rootWF_emptyTrie x
  rw [printList_emptyTrie] at h
  simp only [List.not_mem_nil, or_false] at h
  exact h

/-- C5 as stated is false: on the tree where only "car" was inserted (and
nothing removed), the suffix "" satisfies "car" ++ "" stored, yet
`complete("car")` is empty. -/
theorem c5_counterexample_empty_suffix :
    ¬ ((([] : List Char) ∈
        Radix_Trie.complete (Radix_Trie.buildTrie [['c','a','r']]) ['c','a','r']) ↔
      (['c','a','r'] ++ ([] : List Char)) ∈
        Radix_Trie.listWords (Radix_Trie.buildTrie [['c','a','r']])) := by
  intro h
  have h2 := h.mpr
  rw [List.append_nil] at h2
  have h3 : ['c','a','r'] ∈ Radix_Trie.listWords (Radix_Trie.buildTrie [['c','a','r']]) := by
    simp [Radix_Trie.listWords, Radix_Trie.buildTrie, Radix_Trie.insert, emptyTrie,
      insertGo, printList, printListChildren, childLookup, childUpdate, matchLen]
  have h4 := h2 h3
  have h5 : Radix_Trie.complete (Radix_Trie.buildTrie [['c','a','r']]) ['c','a','r'] = [] := by
    simp [Radix_Trie.complete, Radix_Trie.buildTrie, Radix_Trie.insert, emptyTrie,
      insertGo, completeGo, completeCollect, completeCollectList, childLookup,
      childUpdate, matchLen]
  rw [h5] at h4
  simp at h4

/-- C5 (amended): for every reachable tree state and every prefix p,
`complete(p)` returns exactly the set of non-empty suffixes s such that
p ++ s is currently stored (reported by `list()`). -/
theorem c5_complete_exact_nonempty (t : Radix_Node) (p s : List Char)
    (h : Reachable t) :
    s ∈ Radix_Trie.complete t p ↔
      (s ≠ [] ∧ (p ++ s) ∈ Radix_Trie.listWords t) := by
  obtain ⟨hd, hc⟩ := rootWF_parts t (reachable_rootWF t h)
  exact mem_completeGo t p s hd hc

/-- Witness for C5 after inserting "car" and "cart", at prefix "car" and
suffix "t". -/
theorem c5_complete_exact_nonempty_witness :
    ['t'] ∈ Radix_Trie.complete
        (insertGo (insertGo emptyTrie ['c','a','r']) ['c','a','r','t']) ['c','a','r'] ↔
      ((['t'] : List Char) ≠ [] ∧ (['c','a','r'] ++ ['t']) ∈
        Radix_Trie.listWords (insertGo (insertGo emptyTrie ['c','a','r']) ['c','a','r','t'])) :=
  c5_complete_exact_nonempty _ ['c','a','r'] ['t']
    (Reachable.ins _ ['c','a','r','t'] (Reachable.ins emptyTrie ['c','a','r'] Reachable.base))

/-- C6.  `complete` never reports the empty suffix, for any tree and any
prefix; concretely, after inserting "car" and "cart", `complete("car")` is
exactly ["t"], not ["", "t"]. -/
theorem c6_no_empty_completion :
    (∀ (t : Radix_Node) (p : List Char), ([] : List Char) ∉ Radix_Trie.complete t p) ∧
    Radix_Trie.complete (Radix_Trie.buildTrie [['c','a','r'], ['c','a','r','t']])
      ['c','a','r'] = [['t']] := by
  constructor
  · intro t p
    exact nil_not_mem_completeGo t p
  · simp [Radix_Trie.complete, Radix_Trie.buildTrie, Radix_Trie.insert, emptyTrie,
      insertGo, completeGo, completeCollect, completeCollectList, childLookup,
      childUpdate, matchLen]

/-- C7 as stated is false at the empty query on the empty trie: no word is
stored, so "" is not a prefix of any stored word, yet `find("")` returns
the root node instead of being absent. -/
theorem c7_counterexample_empty_query :
    ¬ ((∀ x, x ∈ Radix_Trie.listWords emptyTrie → ¬ (([] : List Char) <+: x)) →
      Radix_Trie.find emptyTrie [] false = none) := by
  intro h
  have h2 := h (by
    intro x hx
    rw [show Radix_Trie.listWords emptyTrie = [] from printList_emptyTrie] at hx
    simp at hx)
  rw [show Radix_Trie.find emptyTrie [] false = some emptyTrie from findGo_nil emptyTrie false] at h2
  cases h2

/-- C7 (amended): on every reachable tree, (a) every listed word is found
with the word flag set; (b) every NON-EMPTY query that is not a prefix of
any listed word is absent in both modes; (c) a stored proper prefix that is
not itself a word is either absent in exact mode or found as a non-word
node in partial mode. -/
theorem c7_lookup_correctness (t : Radix_Node) (h : Reachable t) :
    (∀ w, w ∈ Radix_Trie.listWords t →
      ∃ nd, Radix_Trie.find t w false = some nd ∧ nd.is_word = true) ∧
    (∀ w ap, w ≠ [] → (∀ x, x ∈ Radix_Trie.listWords t → ¬ (w <+: x)) →
      Radix_Trie.find t w ap = none) ∧
    (∀ p, p ∉ Radix_Trie.listWords t →
      (∃ x, x ∈ Radix_Trie.listWords t ∧ p <+: x) →
      (Radix_Trie.find t p false = none ∨
        ∃ nd, Radix_Trie.find t p true = some nd ∧ nd.is_word = false)) := by
  obtain ⟨hd, hc⟩ := rootWF_parts t (reachable_rootWF t h)
  refine ⟨?_, ?_, ?_⟩
  · intro w hw
    exact (findGo_exact_word_iff t w hd hc).mpr hw
  · intro w ap hne hnopre
    cases hfind : findGo t w ap with
    | none => exact hfind
    | some nd =>
      rcases findGo_some_prefix t w ap nd hd hc hfind with hnil | ⟨x, hx, hpre⟩
      · exact absurd hnil hne
      · exact absurd hpre (hnopre x hx)
  · intro p hnw hpre
    cases hfind : findGo t p false with
    | none => exact Or.inl hfind
    | some nd =>
      right
      refine ⟨nd, find_partial_of_exact t p nd hfind, ?_⟩
      cases hw : nd.is_word with
      | false => rfl
      | true =>
        exact absurd ((findGo_exact_word_iff t p hd hc).mp ⟨nd, hfind, hw⟩) hnw

/-- Witness for C7 at the tree obtained by inserting "car" and "cart". -/
theorem c7_lookup_correctness_witness :
    (∀ w, w ∈ Radix_Trie.listWords
        (insertGo (insertGo emptyTrie ['c','a','r']) ['c','a','r','t']) →
      ∃ nd, Radix_Trie.find
        (insertGo (insertGo emptyTrie ['c','a','r']) ['c','a','r','t']) w false = some nd ∧
        nd.is_word = true) ∧
    (∀ w ap, w ≠ [] →
      (∀ x, x ∈ Radix_Trie.listWords
        (insertGo (insertGo emptyTrie ['c','a','r']) ['c','a','r','t']) → ¬ (w <+: x)) →
      Radix_Trie.find
        (insertGo (insertGo emptyTrie ['c','a','r']) ['c','a','r','t']) w ap = none) ∧
    (∀ p, p ∉ Radix_Trie.listWords
        (insertGo (insertGo emptyTrie ['c','a','r']) ['c','a','r','t']) →
      (∃ x, x ∈ Radix_Trie.listWords
        (insertGo (insertGo emptyTrie ['c','a','r']) ['c','a','r','t']) ∧ p <+: x) →
      (Radix_Trie.find
        (insertGo (insertGo emptyTrie ['c','a','r']) ['c','a','r','t']) p false = none ∨
        ∃ nd, Radix_Trie.find
          (insertGo (insertGo emptyTrie ['c','a','r']) ['c','a','r','t']) p true = some nd ∧
          nd.is_word = false)) :=
  c7_lookup_correctness _
    (Reachable.ins _ ['c','a','r','t'] (Reachable.ins emptyTrie ['c','a','r'] Reachable.base))

/-- C8.  Inserting a word already stored in a reachable tree changes
nothing: the tree (hence its node structure and its `list()` output) is
unchanged. -/
theorem c8_insert_idempotent (t : Radix_Node) (w : List Char) (h : Reachable t)
    (hw : w ∈ Radix_Trie.listWords t) :
    Radix_Trie.insert t w = t ∧
      Radix_Trie.listWords (Radix_Trie.insert t w) = Radix_Trie.listWords t := by
  obtain ⟨hd, hc⟩ := rootWF_parts t (reachable_rootWF t h)
  have heq : insertGo t w = t := insertGo_mem_self t w hd hc hw
  exact ⟨heq, by rw [show Radix_Trie.insert t w = t from heq]⟩

/-- Witness for C8: re-inserting "car" into the tree that stores "car". -/
theorem c8_insert_idempotent_witness :
    Radix_Trie.insert (insertGo emptyTrie ['c','a','r']) ['c','a','r'] =
        insertGo emptyTrie ['c','a','r'] ∧
      Radix_Trie.listWords (Radix_Trie.insert (insertGo emptyTrie ['c','a','r']) ['c','a','r']) =
        Radix_Trie.listWords (insertGo emptyTrie ['c','a','r']) :=
  c8_insert_idempotent _ ['c','a','r']
    (Reachable.ins emptyTrie ['c','a','r'] Reachable.base)
    (by simp [Radix_Trie.listWords, emptyTrie, insertGo, printList, printListChildren,
      childLookup, childUpdate, matchLen])

/-- C9.  Inserting the empty string marks the root itself terminal (no
descent, no other change: label and child map are untouched), and
afterwards `find("")` reports the empty word as stored. -/
theorem c9_insert_empty_marks_root (t : Radix_Node) :
    Radix_Trie.insert t [] = Radix_Node.mk t.val t.children true ∧
    Radix_Trie.find (Radix_Trie.insert t []) [] false =
      some (Radix_Node.mk t.val t.children true) ∧
    (Radix_Node.mk t.val t.children true).is_word = true := by
  obtain ⟨v, cs, iw⟩ := t
  refine ⟨insertGo_nil v cs iw, ?_, rfl⟩
  show findGo (insertGo (.mk v cs iw) []) [] false = _
  rw [insertGo_nil, findGo_nil]
  simp

/-- C10.  `find("")` never returns absent: it returns the root itself in
both modes, and on reachable trees the root's word flag says whether the
empty word is stored. -/
theorem c10_find_empty_returns_root (t : Radix_Node) (ap : Bool)
    (h : Reachable t) :
    Radix_Trie.find t [] ap = some t ∧
      (t.is_word = true ↔ ([] : List Char) ∈ Radix_Trie.listWords t) := by
  obtain ⟨hd, hc⟩ := rootWF_parts t (reachable_rootWF t h)
  refine ⟨findGo_nil t ap, ?_⟩
  obtain ⟨v, cs, iw⟩ := t
  exact (nil_mem_printList_iff v cs iw hd hc).symm

/-- Witness for C10 at the fresh trie with exact mode. -/
theorem c10_find_empty_returns_root_witness :
    Radix_Trie.find emptyTrie [] false = some emptyTrie ∧
      (emptyTrie.is_word = true ↔ ([] : List Char) ∈ Radix_Trie.listWords emptyTrie) :=
  c10_find_empty_returns_root emptyTrie false Reachable.base

end ClaimTheorems
